import Mathlib

/-!
Verification of the texture-graph engine of `src/src/graph.rs`
(`TextureGraph` and its operations) against its specification.

The Rust code is shallowly embedded:
* `petgraph::DiGraph<Node<T>, usize>` becomes a list of nodes (a `NodeIndex`
  is the position in that list; the public API never removes nodes, and
  `add_node` appends, so positions are stable) plus a list of labelled edges.
* `HashMap<NodeIndex, T>` becomes an association list with
  lookup/insert/remove by key; only key-indexed observations occur.
* Rust panics (out-of-bounds indexing `self.g[i]`, `self.results[i]`) are
  modelled as `Option.none` outcomes of the enclosing operation.
* The petgraph library calls are modelled by their documented behaviour:
  `is_cyclic_directed` decides the existence of a directed cycle, `Bfs`
  visits exactly the nodes reachable from its start (so `invalidate_nodes`
  removes exactly the forward-reachable keys), and `Topo` emits a
  topological order of the acyclic graph.  The bridging theorems below
  relate the executable bounded-fuel decision procedures used for these to
  the propositional edge relation (`hasEdge`, `Relation.TransGen`).
-/

namespace TexGraph

/-- The `TextureTransformer<T>` trait of `core/src/lib.rs`: `generate`
produces a value from the ordered inputs, `inputs` is the fixed arity and
`is_valid` optionally validates the inputs (default: always true). -/
structure Transformer (T : Type) where
  generate : List T → T
  inputs : Nat
  is_valid : List T → Bool := fun _ => true

/-- `Node<T>` of `graph.rs`: a named wrapper around one transformer. -/
structure Node (T : Type) where
  name : String
  function : Transformer T

/-- A directed edge `src → dest` labelled with the destination input slot
(the `usize` edge weight of the `DiGraph`). -/
structure Edge where
  src : Nat
  dest : Nat
  weight : Nat
  deriving DecidableEq, Repr

/-- Lookup in the result cache (`HashMap::get`). -/
def resLookup {T : Type} (l : List (Nat × T)) (k : Nat) : Option T :=
  (l.find? (fun p => p.1 == k)).map (fun p => p.2)

/-- Key-membership in the result cache (`HashMap::contains_key`). -/
def resContains {T : Type} (l : List (Nat × T)) (k : Nat) : Bool :=
  (l.find? (fun p => p.1 == k)).isSome

/-- Removal from the result cache (`HashMap::remove`). -/
def resRemove {T : Type} (k : Nat) (l : List (Nat × T)) : List (Nat × T) :=
  l.filter (fun p => p.1 != k)

/-- Insertion into the result cache (`HashMap::insert`). -/
def resInsert {T : Type} (k : Nat) (v : T) (l : List (Nat × T)) : List (Nat × T) :=
  (k, v) :: resRemove k l

/-- `TextureGraph<T>` of `graph.rs`: the node arena, the labelled edge list,
the result cache and the (write-only) `cached` flag. -/
structure TextureGraph (T : Type) where
  nodes : List (Node T)
  edges : List Edge
  results : List (Nat × T)
  cached : Bool

namespace TextureGraph

variable {T : Type}

/-- `TextureGraph::new`. -/
def new : TextureGraph T :=
  { nodes := [], edges := [], results := [], cached := false }

/-- `TextureGraph::node_count`. -/
def node_count (g : TextureGraph T) : Nat :=
  g.nodes.length

/-- `TextureGraph::get_node` (`node_weight`, `None` for a stale index). -/
def get_node (g : TextureGraph T) (index : Nat) : Option (Node T) :=
  g.nodes[index]?

/-- `TextureGraph::add_node`: appends the node (petgraph hands out the next
free index) and clears the `cached` flag.  Returns the fresh index. -/
def add_node (g : TextureGraph T) (test_node : Node T) : Nat × TextureGraph T :=
  (g.nodes.length, { g with nodes := g.nodes ++ [test_node], cached := false })

/-- The incoming edges of `dest` (`edges_directed(dest, Incoming)`). -/
def incoming (g : TextureGraph T) (dest : Nat) : List Edge :=
  g.edges.filter (fun e => e.dest == dest)

/-- The declared arity of the node at `index` (`function.inputs()`);
`0` for a stale index (only used after the index was checked live). -/
def arityOf (g : TextureGraph T) (index : Nat) : Nat :=
  match g.nodes[index]? with
  | some node => node.function.inputs
  | none => 0

end TextureGraph

/-- `a` has a direct edge to `b` in the edge list. -/
def edgeB (edges : List Edge) (a b : Nat) : Bool :=
  edges.any (fun e => e.src == a && e.dest == b)

/-- Bounded path search: a directed path from `a` to `b` of at least one
and at most `fuel` edges exists. -/
def pathB (edges : List Edge) : Nat → Nat → Nat → Bool
  | 0, _, _ => false
  | fuel + 1, a, b =>
    edgeB edges a b || edges.any (fun e => e.src == a && pathB edges fuel e.dest b)

namespace TextureGraph

variable {T : Type}

/-- `petgraph::algo::is_cyclic_directed`: some node lies on a directed
cycle.  A shortest closed walk repeats no node strictly inside, so fuel
`node_count` suffices (proved in the walk lemmas below). -/
def is_cyclic_directed (g : TextureGraph T) : Bool :=
  (List.range g.nodes.length).any (fun v => pathB g.edges g.nodes.length v v)

/-- Forward reachability (`b` reachable from `a` by zero or more edges),
the set of nodes a `Bfs` started at `a` visits. -/
def reachableFromB (g : TextureGraph T) (a b : Nat) : Bool :=
  a == b || pathB g.edges g.nodes.length a b

/-- `TextureGraph::invalidate_nodes`: the BFS from `source_index` visits
exactly the forward-reachable nodes and removes each visited key from the
result cache. -/
def invalidate_nodes (g : TextureGraph T) (source_index : Nat) : TextureGraph T :=
  { g with results := g.results.filter (fun p => !(reachableFromB g source_index p.1)) }

/-- The edge occupying slot `target_input` of `dest`, if any
(`edges_directed(dest, Incoming).find(|e| *e.weight() == target_input)`;
unique in every reachable state by slot uniqueness). -/
def findSlot (g : TextureGraph T) (dest target_input : Nat) : Option Edge :=
  g.edges.find? (fun e => e.dest == dest && e.weight == target_input)

/-- `TextureGraph::add_edge`.  The checks, the replace-then-cycle-check
with rollback (the restored old edge ends up at the back of the edge
arena, as petgraph's swap-removal leaves it), and the invalidation of the
destination on a committed replacement follow `graph.rs` lines 74-117. -/
def add_edge (g : TextureGraph T) (src dest target_input : Nat) :
    Except String Unit × TextureGraph T :=
  if (g.nodes[src]?).isNone then
    (Except.error "Unknown node", g)
  else if (g.nodes[dest]?).isNone then
    (Except.error "Unknown node", g)
  else if src == dest then
    (Except.error "Self feeding node", g)
  else if arityOf g dest ≤ target_input then
    (Except.error "Invalid target", g)
  else
    match findSlot g dest target_input with
    | some old =>
      let removed := g.edges.erase old
      let tentative : TextureGraph T :=
        { g with edges := removed ++ [⟨src, dest, target_input⟩] }
      if is_cyclic_directed tentative then
        (Except.error "Edge would create cycle", { g with edges := removed ++ [old] })
      else
        (Except.ok (), invalidate_nodes { tentative with cached := false } dest)
    | none =>
      let tentative : TextureGraph T :=
        { g with edges := g.edges ++ [⟨src, dest, target_input⟩] }
      if is_cyclic_directed tentative then
        (Except.error "Edge would create cycle", g)
      else
        (Except.ok (), { tentative with cached := false })

/-- The graph `add_edge` tentatively checks for a cycle: the old occupant
of the slot (if any) removed and the new edge appended. -/
def tentativeGraph (g : TextureGraph T) (src dest target_input : Nat) : TextureGraph T :=
  match findSlot g dest target_input with
  | some old => { g with edges := (g.edges.erase old) ++ [⟨src, dest, target_input⟩] }
  | none => { g with edges := g.edges ++ [⟨src, dest, target_input⟩] }

/-- The up-front checks of `add_edge` (live endpoints, no self loop, slot
within arity) all pass. -/
def checksPass (g : TextureGraph T) (src dest target_input : Nat) : Bool :=
  (g.nodes[src]?).isSome && (g.nodes[dest]?).isSome && src != dest
    && target_input < arityOf g dest

/-- `TextureGraph::node_complete`: arity equals in-degree; `none` models
the panic of `&self.g[node_index]` on a stale index. -/
def node_complete (g : TextureGraph T) (node_index : Nat) : Option Bool :=
  (g.nodes[node_index]?).map
    (fun node => node.function.inputs == (incoming g node_index).length)

/-- Stable insertion into a slot-sorted list of `(slot, source)` pairs. -/
def insertBySlot (p : Nat × Nat) : List (Nat × Nat) → List (Nat × Nat)
  | [] => [p]
  | q :: qs => if p.1 ≤ q.1 then p :: q :: qs else q :: insertBySlot p qs

/-- `inputs.sort_by_key(|(t, _)| *t)`: sort `(slot, source)` pairs by slot
ascending. -/
def sortBySlot : List (Nat × Nat) → List (Nat × Nat)
  | [] => []
  | p :: ps => insertBySlot p (sortBySlot ps)

/-- Look up every key in order; `none` exactly when some key is absent
(the `contains_key` guard followed by indexing in the Rust code). -/
def lookupAll (results : List (Nat × T)) : List Nat → Option (List T)
  | [] => some []
  | k :: ks =>
    match resLookup results k, lookupAll results ks with
    | some v, some vs => some (v :: vs)
    | _, _ => none

/-- The predecessors of `index` in canonical slot-ascending order: the
`(slot, source)` pairs of the incoming edges, sorted by slot, sources
kept. -/
def targetsOf (g : TextureGraph T) (index : Nat) : List Nat :=
  (sortBySlot ((incoming g index).map (fun e => (e.weight, e.src)))).map (fun p => p.2)

/-- `TextureGraph::generate_node` (`graph.rs` lines 152-175): completeness
check (panicking on a stale index), collection of `(slot, source)` pairs,
slot-ascending sort, cache lookup of every source (`mapM` is `none` exactly
when some predecessor is missing, the `contains_key` test), the
transformer's validity check, then generation and cache insertion. -/
def generate_node (g : TextureGraph T) (index : Nat) :
    Option (Except String Unit × TextureGraph T) :=
  match node_complete g index with
  | none => none
  | some false => some (Except.error "Node not completed", g)
  | some true =>
    match lookupAll g.results (targetsOf g index) with
    | none => some (Except.error "Predecessors of node not generated", g)
    | some vals =>
      match g.nodes[index]? with
      | none => none
      | some node =>
        if !(node.function.is_valid vals) then
          some (Except.error "Input images not valid", g)
        else
          some (Except.ok (),
            { g with results := resInsert index (node.function.generate vals) g.results })

/-- A node is ready for the `Topo` visitor: not yet visited and every
source of an incoming edge already visited. -/
def readyNode (g : TextureGraph T) (visited : List Nat) (v : Nat) : Bool :=
  !(visited.contains v) && (incoming g v).all (fun e => visited.contains e.src)

/-- The `Topo` visitor: repeatedly emit a ready node until none is left
(on an acyclic graph this exhausts all nodes; fuel `node_count` bounds the
number of emissions). -/
def topoAux (g : TextureGraph T) : Nat → List Nat → List Nat
  | 0, _ => []
  | fuel + 1, visited =>
    match (List.range g.nodes.length).find? (readyNode g visited) with
    | none => []
    | some v => v :: topoAux g fuel (visited ++ [v])

/-- The node order the `Topo` visitor emits for `g`. -/
def topoOrder (g : TextureGraph T) : List Nat :=
  topoAux g g.nodes.length []

/-- Run `generate_node` on each index in turn, stopping at the first
failure; `none` propagates a panic. -/
def runNodes : TextureGraph T → List Nat → Option (Except String Unit × TextureGraph T)
  | g, [] => some (Except.ok (), g)
  | g, index :: rest =>
    match generate_node g index with
    | none => none
    | some (Except.error msg, g2) => some (Except.error msg, g2)
    | some (Except.ok _, g2) => runNodes g2 rest

/-- `TextureGraph::generate_graph`: `generate_node` on every node in the
topological order, stopping at the first failure. -/
def generate_graph (g : TextureGraph T) : Option (Except String Unit × TextureGraph T) :=
  runNodes g (topoOrder g)

/-- As `runNodes`, but skip any index that already has a cache entry. -/
def runMissing : TextureGraph T → List Nat → Option (Except String Unit × TextureGraph T)
  | g, [] => some (Except.ok (), g)
  | g, index :: rest =>
    if resContains g.results index then
      runMissing g rest
    else
      match generate_node g index with
      | none => none
      | some (Except.error msg, g2) => some (Except.error msg, g2)
      | some (Except.ok _, g2) => runMissing g2 rest

/-- `TextureGraph::generate_graph_missing`: the same traversal but cached
nodes are skipped. -/
def generate_graph_missing (g : TextureGraph T) :
    Option (Except String Unit × TextureGraph T) :=
  runMissing g (topoOrder g)

/-- The indices on which `generate_graph_missing`'s traversal would invoke
`generate_node` (and hence possibly the transformer's `generate`): the
non-skipped ones, up to the first failure. -/
def missingEvals : TextureGraph T → List Nat → List Nat
  | _, [] => []
  | g, index :: rest =>
    if resContains g.results index then
      missingEvals g rest
    else
      match generate_node g index with
      | some (Except.ok _, g2) => index :: missingEvals g2 rest
      | _ => [index]

/-- `TextureGraph::get_result` (`graph.rs` lines 140-145): consults only
the `cached` flag; when the flag is set it indexes `self.results[index]`,
which panics (outer `none`) if the key is absent; when the flag is clear
it returns `None` (modelled `some none`) regardless of the cache. -/
def get_result (g : TextureGraph T) (index : Nat) : Option (Option T) :=
  match g.cached with
  | true => (resLookup g.results index).map (fun v => some v)
  | false => some none

/-- `TextureGraph::get_generated_node`: `self.results.get(index)`. -/
def get_generated_node (g : TextureGraph T) (index : Nat) : Option T :=
  resLookup g.results index

/-- Well-formed edges: endpoints are live node indices, no self loop, and
the slot label lies below the destination's declared arity. -/
def WFEdges (g : TextureGraph T) : Prop :=
  ∀ e ∈ g.edges, e.src < g.nodes.length ∧ e.dest < g.nodes.length ∧
    e.src ≠ e.dest ∧ e.weight < arityOf g e.dest

/-- At most one incoming edge per `(destination, slot)` pair. -/
def SlotUnique (g : TextureGraph T) : Prop :=
  g.edges.Pairwise (fun e1 e2 => e1.dest = e2.dest → e1.weight ≠ e2.weight)

/-- Every cached node is live and complete (in-degree equals arity). -/
def CacheComplete (g : TextureGraph T) : Prop :=
  ∀ p ∈ g.results, p.1 < g.nodes.length ∧ (incoming g p.1).length = arityOf g p.1

/-- The state invariant maintained by every public operation. -/
def Inv (g : TextureGraph T) : Prop :=
  WFEdges g ∧ SlotUnique g ∧ CacheComplete g ∧ is_cyclic_directed g = false

end TextureGraph

/-! ### Result-cache (association list) lemmas -/

theorem resLookup_cons_ne {T : Type} (l : List (Nat × T)) (p : Nat × T) (k : Nat)
    (h : p.1 ≠ k) : resLookup (p :: l) k = resLookup l k := by
  have hbeq : (p.1 == k) = false := by simp [h]
  simp [resLookup, List.find?_cons_of_neg, hbeq]

theorem resLookup_filter {T : Type} (l : List (Nat × T)) (f : Nat → Bool) (k : Nat) :
    resLookup (l.filter (fun p => f p.1)) k = if f k then resLookup l k else none := by
  induction l with
  | nil => cases h : f k <;> simp [resLookup, h]
  | cons p l ih =>
    simp only [List.filter_cons]
    by_cases hk : p.1 = k
    · cases h : f k
      · have hfp : f p.1 = false := by rw [hk, h]
        simp only [hfp, Bool.false_eq_true, if_false, ih, h]
      · have hfp : f p.1 = true := by rw [hk, h]
        simp only [hfp, if_true, h]
        have hbeq : (p.1 == k) = true := by simp [hk]
        simp [resLookup, List.find?_cons_of_pos, hbeq]
    · cases h : f p.1
      · simp only [h, Bool.false_eq_true, if_false]
        rw [ih, resLookup_cons_ne l p k hk]
      · simp only [h, if_true]
        rw [resLookup_cons_ne _ p k hk, ih, resLookup_cons_ne l p k hk]

theorem resLookup_resInsert_self {T : Type} (l : List (Nat × T)) (k : Nat) (v : T) :
    resLookup (resInsert k v l) k = some v := by
  simp [resInsert, resLookup, List.find?]

theorem resLookup_resInsert_ne {T : Type} (l : List (Nat × T)) (k k' : Nat) (v : T)
    (h : k' ≠ k) :
    resLookup (resInsert k v l) k' = resLookup l k' := by
  have hbeq : (k == k') = false := by simp [Ne.symm h]
  have : resLookup (resRemove k l) k' = resLookup l k' := by
    have := resLookup_filter l (fun a => a != k) k'
    simpa [resRemove, h] using this
  simp [resInsert, resLookup, List.find?, hbeq] at this ⊢
  exact this

theorem resContains_eq_isSome {T : Type} (l : List (Nat × T)) (k : Nat) :
    resContains l k = (resLookup l k).isSome := by
  simp [resContains, resLookup]

theorem resLookup_mem {T : Type} {l : List (Nat × T)} {k : Nat} {v : T}
    (h : resLookup l k = some v) : (k, v) ∈ l := by
  simp only [resLookup, Option.map_eq_some'] at h
  obtain ⟨p, hp, hv⟩ := h
  have hmem := List.mem_of_find?_eq_some hp
  have hk := List.find?_some hp
  simp only [beq_iff_eq] at hk
  subst hv
  have hpl : (p.1, p.2) ∈ l := by simpa using hmem
  rwa [hk] at hpl

theorem mem_resInsert {T : Type} {l : List (Nat × T)} {k : Nat} {v : T} {p : Nat × T}
    (h : p ∈ resInsert k v l) : p = (k, v) ∨ p ∈ l := by
  simp only [resInsert, resRemove, List.mem_cons, List.mem_filter] at h
  rcases h with h | ⟨h, _⟩
  · exact Or.inl h
  · exact Or.inr h

/-! ### The edge relation, bounded path search and walks -/

/-- `a` has a direct edge to `b` (the propositional edge relation). -/
def hasEdge (edges : List Edge) (a b : Nat) : Prop :=
  ∃ e ∈ edges, e.src = a ∧ e.dest = b

theorem edgeB_iff {edges : List Edge} {a b : Nat} :
    edgeB edges a b = true ↔ hasEdge edges a b := by
  simp [edgeB, hasEdge, List.any_eq_true, Bool.and_eq_true, beq_iff_eq]

theorem pathB_transGen {edges : List Edge} {fuel a b : Nat}
    (h : pathB edges fuel a b = true) : Relation.TransGen (hasEdge edges) a b := by
  induction fuel generalizing a with
  | zero => simp [pathB] at h
  | succ fuel ih =>
    simp only [pathB, Bool.or_eq_true, List.any_eq_true, Bool.and_eq_true, beq_iff_eq] at h
    rcases h with h | ⟨e, he, hsrc, hrec⟩
    · exact Relation.TransGen.single (edgeB_iff.mp h)
    · exact Relation.TransGen.head ⟨e, he, hsrc, rfl⟩ (ih hrec)

theorem pathB_congr {edges₁ edges₂ : List Edge} (h : ∀ e, e ∈ edges₁ ↔ e ∈ edges₂)
    (fuel a b : Nat) : pathB edges₁ fuel a b = pathB edges₂ fuel a b := by
  induction fuel generalizing a with
  | zero => rfl
  | succ fuel ih =>
    simp only [pathB]
    rw [Bool.eq_iff_iff]
    simp only [Bool.or_eq_true, List.any_eq_true, Bool.and_eq_true, beq_iff_eq, edgeB]
    constructor
    · rintro (⟨e, he, hp⟩ | ⟨e, he, hsrc, hrec⟩)
      · exact Or.inl ⟨e, (h e).mp he, hp⟩
      · exact Or.inr ⟨e, (h e).mp he, hsrc, by rw [← ih]; exact hrec⟩
    · rintro (⟨e, he, hp⟩ | ⟨e, he, hsrc, hrec⟩)
      · exact Or.inl ⟨e, (h e).mpr he, hp⟩
      · exact Or.inr ⟨e, (h e).mpr he, hsrc, by rw [ih]; exact hrec⟩

/-- A walk of length `L` from `a` to `b`, given as the trace `f`. -/
def FWalk (edges : List Edge) (f : Nat → Nat) (L : Nat) (a b : Nat) : Prop :=
  f 0 = a ∧ f L = b ∧ ∀ i < L, hasEdge edges (f i) (f (i + 1))

theorem fwalk_of_transGen {edges : List Edge} {a b : Nat}
    (h : Relation.TransGen (hasEdge edges) a b) :
    ∃ f L, 1 ≤ L ∧ FWalk edges f L a b := by
  induction h with
  | @single c hac =>
    refine ⟨fun k => if k = 0 then a else c, 1, le_refl 1, by simp, by simp, ?_⟩
    intro i hi
    interval_cases i
    simpa using hac
  | @tail b c _ hbc ih =>
    obtain ⟨f, L, hL, hf0, hfL, hstep⟩ := ih
    have hL1 : ¬ (L + 1 ≤ L) := by omega
    refine ⟨fun k => if k ≤ L then f k else c, L + 1, by omega,
      by simp [hf0], by simp [hL1], ?_⟩
    intro i hi
    by_cases hiL : i < L
    · have h1 : i ≤ L := by omega
      have h2 : i + 1 ≤ L := by omega
      simpa [h1, h2] using hstep i hiL
    · have hiL' : i = L := by omega
      subst hiL'
      simpa [hL1, hfL] using hbc

theorem pathB_of_fwalk {edges : List Edge} {f : Nat → Nat} {L a b fuel : Nat}
    (hw : FWalk edges f L a b) (hL : 1 ≤ L) (hfuel : L ≤ fuel) :
    pathB edges fuel a b = true := by
  induction fuel generalizing f L a with
  | zero => omega
  | succ fuel ih =>
    obtain ⟨hf0, hfL, hstep⟩ := hw
    simp only [pathB, Bool.or_eq_true, List.any_eq_true, Bool.and_eq_true, beq_iff_eq]
    rcases Nat.eq_or_lt_of_le hL with hL1 | hL2
    · left
      rw [edgeB_iff]
      have := hstep 0 (by omega)
      rw [hf0] at this
      rw [← hL1] at hfL
      rwa [hfL] at this
    · right
      have hstep0 := hstep 0 (by omega)
      rw [hf0] at hstep0
      obtain ⟨e, he, hsrc, hdest⟩ := hstep0
      refine ⟨e, he, hsrc, ?_⟩
      rw [hdest]
      have hw' : FWalk edges (fun k => f (k + 1)) (L - 1) (f 1) b := by
        refine ⟨rfl, ?_, ?_⟩
        · show f (L - 1 + 1) = b
          have hL1 : L - 1 + 1 = L := by omega
          rw [hL1]
          exact hfL
        · intro i hi
          exact hstep (i + 1) (by omega)
      exact ih hw' (by omega) (by omega)

theorem fwalk_shorten {edges : List Edge} {f : Nat → Nat} {L a b n : Nat}
    (hw : FWalk edges f L a b) (hL : 1 ≤ L) (hn : ∀ i ≤ L, f i < n) :
    ∃ f' L', 1 ≤ L' ∧ L' ≤ n ∧ FWalk edges f' L' a b := by
  induction L using Nat.strong_induction_on generalizing f with
  | _ L IH =>
    by_cases hsmall : L ≤ n
    · exact ⟨f, L, hL, hsmall, hw⟩
    · push_neg at hsmall
      obtain ⟨hf0, hfL, hstep⟩ := hw
      have hmaps : ∀ i ∈ Finset.range (n + 1), f i ∈ Finset.range n := by
        intro i hi
        simp only [Finset.mem_range] at hi ⊢
        exact hn i (by omega)
      obtain ⟨i, hi, j, hj, hij, hfij⟩ :=
        Finset.exists_ne_map_eq_of_card_lt_of_maps_to
          (by simp : (Finset.range n).card < (Finset.range (n + 1)).card) hmaps
      simp only [Finset.mem_range] at hi hj
      -- reduce to the case i < j
      have key : ∀ i j : Nat, i < j → j ≤ n → f i = f j →
          ∃ f' L', 1 ≤ L' ∧ L' ≤ n ∧ FWalk edges f' L' a b := by
        intro i j hlt hjn hfeq
        set d := j - i with hd
        have hd1 : 1 ≤ d := by omega
        have hwalk2 : FWalk edges (fun k => if k ≤ i then f k else f (k + d))
            (L - d) a b := by
          refine ⟨by simp [hf0], ?_, ?_⟩
          · have hLdi : ¬ (L - d ≤ i) := by omega
            simp only [hLdi, if_false]
            have : L - d + d = L := by omega
            rw [this, hfL]
          · intro m hm
            by_cases hmi : m < i
            · have h1 : m ≤ i := by omega
              have h2 : m + 1 ≤ i := by omega
              simpa [h1, h2] using hstep m (by omega)
            · by_cases hmi' : m = i
              · subst hmi'
                have h2 : ¬ (m + 1 ≤ m) := by omega
                simp only [le_refl, if_true, h2, if_false]
                rw [hfeq]
                have : m + 1 + d = j + 1 := by omega
                rw [this]
                exact hstep j (by omega)
              · have h1 : ¬ (m ≤ i) := by omega
                have h2 : ¬ (m + 1 ≤ i) := by omega
                simp only [h1, h2, if_false]
                have : m + d + 1 = m + 1 + d := by omega
                rw [← this]
                exact hstep (m + d) (by omega)
        refine IH (L - d) (by omega) hwalk2 (by omega) ?_
        · intro m hm
          by_cases hmi : m ≤ i
          · simp only [hmi, if_true]
            exact hn m (by omega)
          · simp only [hmi, if_false]
            exact hn (m + d) (by omega)
      rcases Nat.lt_or_ge i j with hlt | hge
      · exact key i j hlt (by omega) hfij
      · have hlt : j < i := by omega
        exact key j i hlt (by omega) hfij.symm

/-- Completeness of the bounded path search: any propositional path whose
edges stay inside the first `n` node indices is found with fuel `n`. -/
theorem transGen_pathB {edges : List Edge} {a b n : Nat}
    (hwf : ∀ e ∈ edges, e.src < n ∧ e.dest < n)
    (h : Relation.TransGen (hasEdge edges) a b) : pathB edges n a b = true := by
  obtain ⟨f, L, hL, hw⟩ := fwalk_of_transGen h
  have hn : ∀ i ≤ L, f i < n := by
    intro i hiL
    rcases Nat.eq_or_lt_of_le hiL with hEq | hlt
    · obtain ⟨e, he, _, hdest⟩ := hw.2.2 (L - 1) (by omega)
      have : L - 1 + 1 = L := by omega
      rw [this] at hdest
      rw [hEq, ← hdest]
      exact (hwf e he).2
    · obtain ⟨e, he, hsrc, _⟩ := hw.2.2 i hlt
      rw [← hsrc]
      exact (hwf e he).1
  obtain ⟨f', L', hL', hL'n, hw'⟩ := fwalk_shorten hw hL hn
  exact pathB_of_fwalk hw' hL' hL'n

namespace TextureGraph

variable {T : Type}

theorem is_cyclic_eq_false_iff (g : TextureGraph T)
    (hwf : ∀ e ∈ g.edges, e.src < g.nodes.length ∧ e.dest < g.nodes.length) :
    is_cyclic_directed g = false ↔
      ∀ x, ¬ Relation.TransGen (hasEdge g.edges) x x := by
  constructor
  · intro h x hx
    have hxlt : x < g.nodes.length := by
      obtain ⟨f, L, hL, hf0, _, hstep⟩ := fwalk_of_transGen hx
      obtain ⟨e, he, hsrc, _⟩ := hstep 0 (by omega)
      rw [hf0] at hsrc
      rw [← hsrc]
      exact (hwf e he).1
    have := transGen_pathB hwf hx
    have hcyc : is_cyclic_directed g = true := by
      simp only [is_cyclic_directed, List.any_eq_true]
      exact ⟨x, List.mem_range.mpr hxlt, this⟩
    rw [h] at hcyc
    exact Bool.false_ne_true hcyc
  · intro h
    cases hc : is_cyclic_directed g with
    | false => rfl
    | true =>
      simp only [is_cyclic_directed, List.any_eq_true] at hc
      obtain ⟨v, _, hv⟩ := hc
      exact absurd (pathB_transGen hv) (h v)

@[simp] theorem invalidate_nodes_nodes (g : TextureGraph T) (s : Nat) :
    (invalidate_nodes g s).nodes = g.nodes := rfl

@[simp] theorem invalidate_nodes_edges (g : TextureGraph T) (s : Nat) :
    (invalidate_nodes g s).edges = g.edges := rfl

@[simp] theorem invalidate_nodes_cached (g : TextureGraph T) (s : Nat) :
    (invalidate_nodes g s).cached = g.cached := rfl

theorem getElem?_isSome_iff {α : Type _} {l : List α} {i : Nat} :
    l[i]?.isSome = true ↔ i < l.length := by
  rw [Option.isSome_iff_ne_none, ne_eq, List.getElem?_eq_none_iff]
  exact Nat.not_le

theorem is_cyclic_congr (g1 g2 : TextureGraph T)
    (hn : g1.nodes.length = g2.nodes.length)
    (he : ∀ e, e ∈ g1.edges ↔ e ∈ g2.edges) :
    is_cyclic_directed g1 = is_cyclic_directed g2 := by
  simp only [is_cyclic_directed, hn]
  rw [Bool.eq_iff_iff]
  simp only [List.any_eq_true]
  constructor <;> rintro ⟨v, hv, hp⟩ <;> refine ⟨v, hv, ?_⟩
  · rw [← pathB_congr he]
    exact hp
  · rw [pathB_congr he]
    exact hp

theorem checksPass_true {g : TextureGraph T} {s d t : Nat} (h : checksPass g s d t = true) :
    s < g.nodes.length ∧ d < g.nodes.length ∧ s ≠ d ∧ t < arityOf g d := by
  simp only [checksPass, Bool.and_eq_true, bne_iff_ne, ne_eq, decide_eq_true_eq] at h
  obtain ⟨⟨⟨hs, hd⟩, hsd⟩, ht⟩ := h
  exact ⟨getElem?_isSome_iff.mp hs, getElem?_isSome_iff.mp hd, hsd, ht⟩

/-- Full case analysis of `add_edge`: failed up-front checks, cycle
rejection (fresh or replacement) and commit (fresh or replacement). -/
theorem add_edge_spec (g : TextureGraph T) (s d t : Nat) :
    (checksPass g s d t = false ∧ ∃ m, add_edge g s d t = (Except.error m, g)) ∨
    (checksPass g s d t = true ∧ is_cyclic_directed (tentativeGraph g s d t) = true ∧
      ((findSlot g d t = none ∧
          add_edge g s d t = (Except.error "Edge would create cycle", g)) ∨
       (∃ old, findSlot g d t = some old ∧
          add_edge g s d t = (Except.error "Edge would create cycle",
            { g with edges := (g.edges.erase old) ++ [old] })))) ∨
    (checksPass g s d t = true ∧ is_cyclic_directed (tentativeGraph g s d t) = false ∧
      ((findSlot g d t = none ∧
          add_edge g s d t =
            (Except.ok (), { g with edges := g.edges ++ [⟨s, d, t⟩], cached := false })) ∨
       (∃ old, findSlot g d t = some old ∧
          add_edge g s d t = (Except.ok (), invalidate_nodes
            { g with edges := (g.edges.erase old) ++ [⟨s, d, t⟩], cached := false } d)))) := by
  cases hs : g.nodes[s]? with
  | none =>
    refine Or.inl ⟨?_, "Unknown node", ?_⟩
    · simp [checksPass, hs]
    · simp [add_edge, hs]
  | some ns =>
  cases hd : g.nodes[d]? with
  | none =>
    refine Or.inl ⟨?_, "Unknown node", ?_⟩
    · simp [checksPass, hd]
    · simp [add_edge, hs, hd]
  | some nd =>
  by_cases hsd : s = d
  · refine Or.inl ⟨?_, "Self feeding node", ?_⟩
    · simp [checksPass, hsd]
    · simp [add_edge, hs, hd, hsd]
  · by_cases hta : arityOf g d ≤ t
    · refine Or.inl ⟨?_, "Invalid target", ?_⟩
      · simp [checksPass, Nat.not_lt.mpr hta]
      · simp [add_edge, hs, hd, hsd, hta]
    · have hcp : checksPass g s d t = true := by
        simp [checksPass, hs, hd, hsd, Nat.lt_of_not_le hta]
      cases hf : findSlot g d t with
      | none =>
        by_cases hc : is_cyclic_directed
            { g with edges := g.edges ++ [Edge.mk s d t] } = true
        · refine Or.inr (Or.inl ⟨hcp, ?_, Or.inl ⟨rfl, ?_⟩⟩)
          · simpa [tentativeGraph, hf] using hc
          · simp [add_edge, hs, hd, hsd, hta, hf, hc]
        · refine Or.inr (Or.inr ⟨hcp, ?_, Or.inl ⟨rfl, ?_⟩⟩)
          · simpa [tentativeGraph, hf] using Bool.not_eq_true _ ▸ hc
          · simp [add_edge, hs, hd, hsd, hta, hf, hc]
      | some old =>
        by_cases hc : is_cyclic_directed
            { g with edges := (g.edges.erase old) ++ [Edge.mk s d t] } = true
        · refine Or.inr (Or.inl ⟨hcp, ?_, Or.inr ⟨old, rfl, ?_⟩⟩)
          · simpa [tentativeGraph, hf] using hc
          · simp [add_edge, hs, hd, hsd, hta, hf, hc]
        · refine Or.inr (Or.inr ⟨hcp, ?_, Or.inr ⟨old, rfl, ?_⟩⟩)
          · simpa [tentativeGraph, hf] using Bool.not_eq_true _ ▸ hc
          · simp [add_edge, hs, hd, hsd, hta, hf, hc]

theorem node_complete_eq_none {g : TextureGraph T} {i : Nat} :
    node_complete g i = none ↔ g.nodes[i]? = none := by
  simp [node_complete]

theorem node_complete_some {g : TextureGraph T} {i : Nat} {node : Node T}
    (h : g.nodes[i]? = some node) :
    node_complete g i = some (node.function.inputs == (incoming g i).length) := by
  simp [node_complete, h]

/-- Full case analysis of `generate_node`: stale index (panic),
incompleteness, a missing predecessor value, input rejection, success. -/
theorem generate_node_spec (g : TextureGraph T) (i : Nat) :
    (g.nodes[i]? = none ∧ generate_node g i = none) ∨
    (∃ node, g.nodes[i]? = some node ∧
      ((node.function.inputs ≠ (incoming g i).length ∧
         generate_node g i = some (Except.error "Node not completed", g)) ∨
       (node.function.inputs = (incoming g i).length ∧
         ((lookupAll g.results (targetsOf g i) = none ∧
            generate_node g i = some (Except.error "Predecessors of node not generated", g)) ∨
          (∃ vals, lookupAll g.results (targetsOf g i) = some vals ∧
            ((node.function.is_valid vals = false ∧
               generate_node g i = some (Except.error "Input images not valid", g)) ∨
             (node.function.is_valid vals = true ∧
               generate_node g i = some (Except.ok (),
                 { g with results :=
                     resInsert i (node.function.generate vals) g.results })))))))) := by
  cases hnode : g.nodes[i]? with
  | none =>
    refine Or.inl ⟨rfl, ?_⟩
    simp [generate_node, node_complete_eq_none.mpr hnode]
  | some node =>
    refine Or.inr ⟨node, rfl, ?_⟩
    by_cases hb : node.function.inputs = (incoming g i).length
    · refine Or.inr ⟨hb, ?_⟩
      have hbeq : (node.function.inputs == (incoming g i).length) = true := beq_iff_eq.mpr hb
      cases hm : lookupAll g.results (targetsOf g i) with
      | none =>
        refine Or.inl ⟨rfl, ?_⟩
        simp [generate_node, node_complete_some hnode, hbeq, hm]
      | some vals =>
        refine Or.inr ⟨vals, rfl, ?_⟩
        cases hv : node.function.is_valid vals with
        | false =>
          refine Or.inl ⟨rfl, ?_⟩
          simp [generate_node, node_complete_some hnode, hbeq, hm, hnode, hv]
        | true =>
          refine Or.inr ⟨rfl, ?_⟩
          simp [generate_node, node_complete_some hnode, hbeq, hm, hnode, hv]
    · refine Or.inl ⟨hb, ?_⟩
      have hbeq : (node.function.inputs == (incoming g i).length) = false := by
        simp [hb]
      simp [generate_node, node_complete_some hnode, hbeq]

theorem generate_node_error_state {g g2 : TextureGraph T} {i : Nat} {m : String}
    (h : generate_node g i = some (Except.error m, g2)) : g2 = g := by
  rcases generate_node_spec g i with ⟨_, heq⟩ | ⟨node, _, h1⟩
  · rw [heq] at h
    exact absurd h (by simp)
  · rcases h1 with ⟨_, heq⟩ | ⟨_, ⟨_, heq⟩ | ⟨vals, _, ⟨_, heq⟩ | ⟨_, heq⟩⟩⟩ <;>
      rw [heq] at h <;> simp only [Option.some_inj, Prod.mk.injEq] at h
    · exact h.2.symm ▸ rfl
    · exact h.2.symm ▸ rfl
    · exact h.2.symm ▸ rfl
    · exact absurd h.1 (by simp)

theorem generate_node_ok_state {g g2 : TextureGraph T} {i : Nat} {u : Unit}
    (h : generate_node g i = some (Except.ok u, g2)) :
    ∃ node vals,
      g.nodes[i]? = some node ∧
      node.function.inputs = (incoming g i).length ∧
      lookupAll g.results (targetsOf g i) = some vals ∧
      node.function.is_valid vals = true ∧
      g2 = { g with results := resInsert i (node.function.generate vals) g.results } := by
  rcases generate_node_spec g i with ⟨_, heq⟩ | ⟨node, hnode, h1⟩
  · rw [heq] at h
    exact absurd h (by simp)
  · rcases h1 with ⟨_, heq⟩ | ⟨hlen, ⟨_, heq⟩ | ⟨vals, hm, ⟨_, heq⟩ | ⟨hv, heq⟩⟩⟩ <;>
      rw [heq] at h <;> simp only [Option.some_inj, Prod.mk.injEq] at h
    · exact absurd h.1 (by simp)
    · exact absurd h.1 (by simp)
    · exact absurd h.1 (by simp)
    · exact ⟨node, vals, hnode, hlen, hm, hv, h.2.symm⟩

theorem generate_node_panic_iff {g : TextureGraph T} {i : Nat} :
    generate_node g i = none ↔ g.nodes[i]? = none := by
  constructor
  · intro h
    rcases generate_node_spec g i with ⟨hn, _⟩ | ⟨node, _, h1⟩
    · exact hn
    · rcases h1 with ⟨_, heq⟩ | ⟨_, ⟨_, heq⟩ | ⟨vals, _, ⟨_, heq⟩ | ⟨_, heq⟩⟩⟩ <;>
        rw [heq] at h <;> exact absurd h (by simp)
  · intro h
    simp [generate_node, node_complete_eq_none.mpr h]

/-- `generate_node` never touches the node list, the edge list or the
`cached` flag, and never removes a cache entry of another node. -/
theorem generate_node_frame {g g2 : TextureGraph T} {i : Nat} {r : Except String Unit}
    (h : generate_node g i = some (r, g2)) :
    g2.nodes = g.nodes ∧ g2.edges = g.edges ∧ g2.cached = g.cached ∧
      ∀ k, k ≠ i → resLookup g2.results k = resLookup g.results k := by
  cases r with
  | error m =>
    rw [generate_node_error_state h]
    exact ⟨rfl, rfl, rfl, fun _ _ => rfl⟩
  | ok u =>
    obtain ⟨node, vals, _, _, _, _, heq⟩ := generate_node_ok_state h
    subst heq
    refine ⟨rfl, rfl, rfl, fun k hk => ?_⟩
    exact resLookup_resInsert_ne _ _ _ _ hk

theorem arityOf_congr {g1 g2 : TextureGraph T} (h : g2.nodes = g1.nodes) (k : Nat) :
    arityOf g2 k = arityOf g1 k := by
  simp [arityOf, h]

theorem slotUnique_symm :
    ∀ {e1 e2 : Edge}, (e1.dest = e2.dest → e1.weight ≠ e2.weight) →
      (e2.dest = e1.dest → e2.weight ≠ e1.weight) :=
  fun h hd hw => h hd.symm hw.symm

theorem incoming_length_congr {g1 g2 : TextureGraph T} (h : g2.edges.Perm g1.edges)
    (k : Nat) : (incoming g2 k).length = (incoming g1 k).length :=
  (h.filter _).length_eq

/-- `Inv` only depends on the node list, the result list and the edge
multiset. -/
theorem inv_congr (g1 : TextureGraph T) {g2 : TextureGraph T} (hnodes : g2.nodes = g1.nodes)
    (hres : g2.results = g1.results) (hperm : g2.edges.Perm g1.edges)
    (h : Inv g1) : Inv g2 := by
  obtain ⟨hwf, hsu, hcc, hac⟩ := h
  refine ⟨?_, ?_, ?_, ?_⟩
  · intro e he
    have he1 : e ∈ g1.edges := hperm.mem_iff.mp he
    obtain ⟨h1, h2, h3, h4⟩ := hwf e he1
    rw [hnodes, arityOf_congr hnodes]
    exact ⟨h1, h2, h3, h4⟩
  · exact (hperm.pairwise_iff slotUnique_symm).mpr hsu
  · intro p hp
    rw [hres] at hp
    obtain ⟨h1, h2⟩ := hcc p hp
    rw [hnodes, arityOf_congr hnodes, incoming_length_congr hperm]
    exact ⟨h1, h2⟩
  · rw [is_cyclic_congr g2 g1 (by rw [hnodes]) (fun e => hperm.mem_iff)]
    exact hac

theorem inv_new : Inv (new : TextureGraph T) := by
  refine ⟨?_, ?_, ?_, ?_⟩ <;> simp [WFEdges, SlotUnique, CacheComplete, new, is_cyclic_directed]

theorem inv_add_node (g : TextureGraph T) (n : Node T) (h : Inv g) :
    Inv (add_node g n).2 := by
  obtain ⟨hwf, hsu, hcc, hac⟩ := h
  have hwf2 : WFEdges (add_node g n).2 := by
    intro e he
    obtain ⟨h1, h2, h3, h4⟩ := hwf e he
    refine ⟨?_, ?_, h3, ?_⟩
    · simp only [add_node, List.length_append, List.length_cons, List.length_nil]
      omega
    · simp only [add_node, List.length_append, List.length_cons, List.length_nil]
      omega
    · show e.weight < arityOf (add_node g n).2 e.dest
      have : arityOf (add_node g n).2 e.dest = arityOf g e.dest := by
        simp only [add_node, arityOf, List.getElem?_append_left h2]
      rw [this]
      exact h4
  refine ⟨hwf2, hsu, ?_, ?_⟩
  · intro p hp
    obtain ⟨h1, h2⟩ := hcc p hp
    refine ⟨?_, ?_⟩
    · simp only [add_node, List.length_append, List.length_cons, List.length_nil]
      omega
    · have : arityOf (add_node g n).2 p.1 = arityOf g p.1 := by
        simp only [add_node, arityOf, List.getElem?_append_left h1]
      rw [this]
      exact h2
  · have hbound2 : ∀ e ∈ (add_node g n).2.edges,
        e.src < (add_node g n).2.nodes.length ∧ e.dest < (add_node g n).2.nodes.length :=
      fun e he => ⟨(hwf2 e he).1, (hwf2 e he).2.1⟩
    rw [is_cyclic_eq_false_iff _ hbound2]
    have hbound1 : ∀ e ∈ g.edges, e.src < g.nodes.length ∧ e.dest < g.nodes.length :=
      fun e he => ⟨(hwf e he).1, (hwf e he).2.1⟩
    have := (is_cyclic_eq_false_iff g hbound1).mp hac
    exact this

theorem inv_invalidate (g : TextureGraph T) (s : Nat) (h : Inv g) :
    Inv (invalidate_nodes g s) := by
  obtain ⟨hwf, hsu, hcc, hac⟩ := h
  refine ⟨hwf, hsu, ?_, hac⟩
  intro p hp
  have : p ∈ g.results := List.mem_of_mem_filter hp
  exact hcc p this

/-- The occupied slots of a complete node exhaust `0 .. arity - 1`:
if slot `t < arity` is below the arity and the in-degree equals the arity,
some incoming edge occupies slot `t`. -/
theorem slot_filled (g : TextureGraph T) (d t : Nat) (hwf : WFEdges g)
    (hsu : SlotUnique g) (hlen : (incoming g d).length = arityOf g d)
    (ht : t < arityOf g d) :
    ∃ e ∈ g.edges, e.dest = d ∧ e.weight = t := by
  set ws : List Nat := (incoming g d).map (fun e => e.weight) with hws
  have hnodup : ws.Nodup := by
    have hpin : (incoming g d).Pairwise
        (fun e1 e2 => e1.dest = e2.dest → e1.weight ≠ e2.weight) :=
      hsu.sublist (List.filter_sublist _)
    have hdest : ∀ e ∈ incoming g d, e.dest = d := by
      intro e he
      have := List.of_mem_filter he
      simpa [beq_iff_eq] using this
    have : (incoming g d).Pairwise (fun e1 e2 => e1.weight ≠ e2.weight) := by
      refine List.Pairwise.imp_of_mem ?_ hpin
      intro e1 e2 h1 h2 hr
      exact hr ((hdest e1 h1).trans (hdest e2 h2).symm)
    exact this.map _ (fun a b h => h)
  have hsubset : ws.toFinset ⊆ Finset.range (arityOf g d) := by
    intro w hw
    rw [List.mem_toFinset] at hw
    rw [hws] at hw
    obtain ⟨e, he, hwe⟩ := List.mem_map.mp hw
    have hemem : e ∈ g.edges := List.mem_of_mem_filter he
    have hdest : e.dest = d := by
      have := List.of_mem_filter he
      simpa [beq_iff_eq] using this
    rw [Finset.mem_range, ← hwe, ← hdest]
    exact (hwf e hemem).2.2.2
  have hcard : ws.toFinset.card = (Finset.range (arityOf g d)).card := by
    rw [List.toFinset_card_of_nodup hnodup, Finset.card_range, hws,
      List.length_map]
    exact hlen
  have heq : ws.toFinset = Finset.range (arityOf g d) :=
    Finset.eq_of_subset_of_card_le hsubset (le_of_eq hcard.symm)
  have htws : t ∈ ws := by
    rw [← List.mem_toFinset, heq, Finset.mem_range]
    exact ht
  rw [hws] at htws
  obtain ⟨e, he, hwe⟩ := List.mem_map.mp htws
  have hdest : e.dest = d := by
    have := List.of_mem_filter he
    simpa [beq_iff_eq] using this
  exact ⟨e, List.mem_of_mem_filter he, hdest, hwe⟩

theorem inv_generate_node {g g2 : TextureGraph T} {i : Nat} {r : Except String Unit}
    (h : Inv g) (hgen : generate_node g i = some (r, g2)) : Inv g2 := by
  cases r with
  | error m =>
    rw [generate_node_error_state hgen]
    exact h
  | ok u =>
    obtain ⟨node, vals, hnode, hlen, _, _, heq⟩ := generate_node_ok_state hgen
    subst heq
    obtain ⟨hwf, hsu, hcc, hac⟩ := h
    refine ⟨hwf, hsu, ?_, hac⟩
    intro p hp
    rcases mem_resInsert hp with hpi | hpmem
    · subst hpi
      constructor
      · exact getElem?_isSome_iff.mp (by rw [hnode]; rfl)
      · show (incoming g i).length = arityOf g i
        rw [show arityOf g i = node.function.inputs by simp [arityOf, hnode]]
        exact hlen.symm
    · exact hcc p hpmem

theorem inv_runNodes {g g2 : TextureGraph T} {l : List Nat} {r : Except String Unit}
    (h : Inv g) (hrun : runNodes g l = some (r, g2)) : Inv g2 := by
  induction l generalizing g with
  | nil =>
    simp only [runNodes, Option.some_inj, Prod.mk.injEq] at hrun
    rw [← hrun.2]
    exact h
  | cons i rest ih =>
    simp only [runNodes] at hrun
    cases hg : generate_node g i with
    | none =>
      rw [hg] at hrun
      exact absurd hrun (by simp)
    | some p =>
      rw [hg] at hrun
      obtain ⟨r1, g1⟩ := p
      cases r1 with
      | error m =>
        simp only [Option.some_inj, Prod.mk.injEq] at hrun
        rw [← hrun.2]
        exact inv_generate_node h hg
      | ok u =>
        exact ih (inv_generate_node h hg) hrun

theorem inv_runMissing {g g2 : TextureGraph T} {l : List Nat} {r : Except String Unit}
    (h : Inv g) (hrun : runMissing g l = some (r, g2)) : Inv g2 := by
  induction l generalizing g with
  | nil =>
    simp only [runMissing, Option.some_inj, Prod.mk.injEq] at hrun
    rw [← hrun.2]
    exact h
  | cons i rest ih =>
    simp only [runMissing] at hrun
    by_cases hc : resContains g.results i
    · rw [if_pos hc] at hrun
      exact ih h hrun
    · rw [if_neg hc] at hrun
      cases hg : generate_node g i with
      | none =>
        rw [hg] at hrun
        exact absurd hrun (by simp)
      | some p =>
        rw [hg] at hrun
        obtain ⟨r1, g1⟩ := p
        cases r1 with
        | error m =>
          simp only [Option.some_inj, Prod.mk.injEq] at hrun
          rw [← hrun.2]
          exact inv_generate_node h hg
        | ok u =>
          exact ih (inv_generate_node h hg) hrun

/-- The split of the edge list at the (unique) occupant of a slot. -/
theorem findSlot_split {g : TextureGraph T} {d t : Nat} {old : Edge}
    (hf : findSlot g d t = some old) :
    old.dest = d ∧ old.weight = t ∧ old ∈ g.edges ∧
      ∃ as bs, g.edges = as ++ old :: bs ∧ g.edges.erase old = as ++ bs ∧
        ∀ a ∈ as, ¬(a.dest = d ∧ a.weight = t) := by
  have hpred := List.find?_some hf
  simp only [Bool.and_eq_true, beq_iff_eq] at hpred
  obtain ⟨hdest, hweight⟩ := hpred
  have hmem := List.mem_of_find?_eq_some hf
  obtain ⟨hp, as, bs, hsplit, has⟩ := (List.find?_eq_some).mp hf
  have has' : ∀ a ∈ as, ¬(a.dest = d ∧ a.weight = t) := by
    intro a ha hcontra
    have := has a ha
    simp only [Bool.not_eq_true', Bool.and_eq_false_iff, beq_eq_false_iff_ne, ne_eq] at this
    rcases this with h1 | h1 <;> exact h1 (by simp [hcontra.1, hcontra.2])
  have hnotmem : old ∉ as := by
    intro hin
    exact has' old hin ⟨hdest, hweight⟩
  have herase : g.edges.erase old = as ++ bs := by
    rw [hsplit, List.erase_append_right _ hnotmem, List.erase_cons_head]
  exact ⟨hdest, hweight, hmem, as, bs, hsplit, herase, has'⟩

theorem inv_add_edge (g : TextureGraph T) (s d t : Nat) (h : Inv g) :
    Inv (add_edge g s d t).2 := by
  rcases add_edge_spec g s d t with ⟨_, m, heq⟩ | ⟨hcp, hcyc, hcase⟩ | ⟨hcp, hcyc, hcase⟩
  · rw [heq]
    exact h
  · rcases hcase with ⟨hf, heq⟩ | ⟨old, hf, heq⟩
    · rw [heq]
      exact h
    · rw [heq]
      show Inv { g with edges := (g.edges.erase old) ++ [old] }
      have hmem : old ∈ g.edges := List.mem_of_find?_eq_some hf
      refine inv_congr g rfl rfl ?_ h
      exact (List.perm_append_singleton _ _).trans (List.perm_cons_erase hmem).symm
  · obtain ⟨hwf, hsu, hcc, hac⟩ := h
    obtain ⟨hs, hd, hsd, ht⟩ := checksPass_true hcp
    rcases hcase with ⟨hf, heq⟩ | ⟨old, hf, heq⟩
    · -- commit into an empty slot
      rw [heq]
      show Inv { g with edges := g.edges ++ [⟨s, d, t⟩], cached := false }
      have hT : tentativeGraph g s d t = { g with edges := g.edges ++ [⟨s, d, t⟩] } := by
        simp [tentativeGraph, hf]
      rw [hT] at hcyc
      have hnew : ∀ e ∈ g.edges, ¬(e.dest = d ∧ e.weight = t) := by
        intro e he hcontra
        have := List.find?_eq_none.mp hf e he
        simp only [Bool.and_eq_true, beq_iff_eq, not_and] at this
        exact this hcontra.1 hcontra.2
      refine ⟨?_, ?_, ?_, ?_⟩
      · intro e he
        rcases List.mem_append.mp he with he1 | he1
        · obtain ⟨h1, h2, h3, h4⟩ := hwf e he1
          exact ⟨h1, h2, h3, h4⟩
        · rw [List.mem_singleton.mp he1]
          exact ⟨hs, hd, hsd, ht⟩
      · show (g.edges ++ [Edge.mk s d t]).Pairwise
          (fun e1 e2 => e1.dest = e2.dest → e1.weight ≠ e2.weight)
        rw [List.pairwise_append]
        refine ⟨hsu, List.pairwise_singleton _ _, ?_⟩
        intro e he x hx
        rw [List.mem_singleton.mp hx]
        intro hdest hweight
        exact hnew e he ⟨hdest, hweight⟩
      · intro p hp
        obtain ⟨h1, h2⟩ := hcc p hp
        by_cases hpd : p.1 = d
        · exfalso
          obtain ⟨e, he, hed, hew⟩ := slot_filled g d t hwf hsu (hpd ▸ h2) ht
          exact hnew e he ⟨hed, hew⟩
        · refine ⟨h1, ?_⟩
          show ((g.edges ++ [Edge.mk s d t]).filter (fun e => e.dest == p.1)).length
            = arityOf g p.1
          rw [List.filter_append]
          have : (Edge.mk s d t).dest = d := rfl
          have hfd : ([Edge.mk s d t].filter (fun e => e.dest == p.1)) = [] := by
            simp [List.filter_cons, Ne.symm hpd, hpd]
          rw [hfd, List.append_nil]
          exact h2
      · exact hcyc
    · -- commit by replacing the occupant of the slot
      rw [heq]
      show Inv (invalidate_nodes { g with edges := (g.edges.erase old) ++ [⟨s, d, t⟩], cached := false } d)
      obtain ⟨hdest, hweight, hmem, as, bs, hsplit, herase, has⟩ := findSlot_split hf
      have hT : tentativeGraph g s d t =
          { g with edges := (g.edges.erase old) ++ [⟨s, d, t⟩] } := by
        simp [tentativeGraph, hf]
      rw [hT] at hcyc
      have hsub : List.Sublist (g.edges.erase old) g.edges := List.erase_sublist _ _
      have hnodup_rest : ∀ e ∈ g.edges.erase old, ¬(e.dest = d ∧ e.weight = t) := by
        intro e he hcontra
        rw [herase] at he
        rcases List.mem_append.mp he with he1 | he1
        · exact has e he1 hcontra
        · have hpair : (old :: bs).Pairwise
              (fun e1 e2 => e1.dest = e2.dest → e1.weight ≠ e2.weight) := by
            have : List.Sublist (old :: bs) g.edges := by
              rw [hsplit]
              exact List.sublist_append_right as (old :: bs)
            exact hsu.sublist this
          have := (List.pairwise_cons.mp hpair).1 e he1
          exact this (hdest.trans hcontra.1.symm) (hweight.trans hcontra.2.symm)
      refine ⟨?_, ?_, ?_, ?_⟩
      · intro e he
        rcases List.mem_append.mp he with he1 | he1
        · obtain ⟨h1, h2, h3, h4⟩ := hwf e (hsub.mem he1)
          exact ⟨h1, h2, h3, h4⟩
        · rw [List.mem_singleton.mp he1]
          exact ⟨hs, hd, hsd, ht⟩
      · show ((g.edges.erase old) ++ [Edge.mk s d t]).Pairwise
          (fun e1 e2 => e1.dest = e2.dest → e1.weight ≠ e2.weight)
        rw [List.pairwise_append]
        refine ⟨hsu.sublist hsub, List.pairwise_singleton _ _, ?_⟩
        intro e he x hx
        rw [List.mem_singleton.mp hx]
        intro hdest' hweight'
        exact hnodup_rest e he ⟨hdest', hweight'⟩
      · intro p hp
        have hp' := List.mem_filter.mp hp
        obtain ⟨hpmem, hpkeep⟩ := hp'
        have hpd : p.1 ≠ d := by
          intro hpd
          rw [hpd] at hpkeep
          simp [reachableFromB] at hpkeep
        obtain ⟨h1, h2⟩ := hcc p hpmem
        refine ⟨h1, ?_⟩
        show (((g.edges.erase old) ++ [Edge.mk s d t]).filter
            (fun e => e.dest == p.1)).length = arityOf g p.1
        rw [List.filter_append]
        have hfd : ([Edge.mk s d t].filter (fun e => e.dest == p.1)) = [] := by
          simp [List.filter_cons, Ne.symm hpd]
        rw [hfd, List.append_nil, herase, List.filter_append]
        have hold : ((old :: bs).filter (fun e => e.dest == p.1))
            = bs.filter (fun e => e.dest == p.1) := by
          have : (old.dest == p.1) = false := by
            simp [hdest, Ne.symm hpd]
          simp [List.filter_cons, this]
        have h2' : ((as ++ old :: bs).filter (fun e => e.dest == p.1)).length
            = arityOf g p.1 := by
          rw [← hsplit]
          exact h2
        rw [List.filter_append, hold] at h2'
        exact h2'
      · exact hcyc

/-! ### Sorting by slot -/

theorem insertBySlot_perm (p : Nat × Nat) (l : List (Nat × Nat)) :
    (insertBySlot p l).Perm (p :: l) := by
  induction l with
  | nil => exact List.Perm.refl _
  | cons q qs ih =>
    rw [insertBySlot]
    by_cases h : p.1 ≤ q.1
    · rw [if_pos h]
    · rw [if_neg h]
      exact (ih.cons q).trans (List.Perm.swap p q qs)

theorem sortBySlot_perm (l : List (Nat × Nat)) : (sortBySlot l).Perm l := by
  induction l with
  | nil => exact List.Perm.refl _
  | cons p ps ih => exact (insertBySlot_perm p (sortBySlot ps)).trans (ih.cons p)

theorem insertBySlot_pairwise (p : Nat × Nat) (l : List (Nat × Nat))
    (h : l.Pairwise (fun a b => a.1 ≤ b.1)) :
    (insertBySlot p l).Pairwise (fun a b => a.1 ≤ b.1) := by
  induction l with
  | nil => simp [insertBySlot]
  | cons q qs ih =>
    rw [insertBySlot]
    rcases List.pairwise_cons.mp h with ⟨hq, hqs⟩
    by_cases hle : p.1 ≤ q.1
    · rw [if_pos hle]
      refine List.pairwise_cons.mpr ⟨?_, h⟩
      intro b hb
      rcases List.mem_cons.mp hb with heq | hb'
      · rw [heq]
        exact hle
      · exact le_trans hle (hq b hb')
    · rw [if_neg hle]
      refine List.pairwise_cons.mpr ⟨?_, ih hqs⟩
      intro b hb
      have hmem := (insertBySlot_perm p qs).mem_iff.mp hb
      rcases List.mem_cons.mp hmem with heq | hb'
      · rw [heq]
        omega
      · exact hq b hb'

/-- `sortBySlot` returns a slot-ascending permutation of its input. -/
theorem sortBySlot_sorted (l : List (Nat × Nat)) :
    (sortBySlot l).Pairwise (fun a b => a.1 ≤ b.1) := by
  induction l with
  | nil => simp [sortBySlot]
  | cons p ps ih => exact insertBySlot_pairwise p _ ih

/-! ### Run semantics of the evaluators -/

theorem runNodes_preserves_entry {g g2 : TextureGraph T} {l : List Nat}
    {r : Except String Unit} (h : runNodes g l = some (r, g2)) {k : Nat} {v : T}
    (hk : resLookup g.results k = some v) :
    ∃ v2, resLookup g2.results k = some v2 := by
  induction l generalizing g v with
  | nil =>
    simp only [runNodes, Option.some_inj, Prod.mk.injEq] at h
    rw [← h.2]
    exact ⟨v, hk⟩
  | cons i rest ih =>
    simp only [runNodes] at h
    cases hg : generate_node g i with
    | none =>
      rw [hg] at h
      exact absurd h (by simp)
    | some p =>
      rw [hg] at h
      obtain ⟨r1, g1⟩ := p
      have hstep : ∃ v1, resLookup g1.results k = some v1 := by
        cases r1 with
        | error m =>
          rw [generate_node_error_state hg]
          exact ⟨v, hk⟩
        | ok u =>
          obtain ⟨node, vals, _, _, _, _, heq⟩ := generate_node_ok_state hg
          subst heq
          by_cases hki : k = i
          · subst hki
            exact ⟨_, resLookup_resInsert_self _ _ _⟩
          · rw [resLookup_resInsert_ne _ _ _ _ hki]
            exact ⟨v, hk⟩
      obtain ⟨v1, hv1⟩ := hstep
      cases r1 with
      | error m =>
        simp only [Option.some_inj, Prod.mk.injEq] at h
        rw [← h.2]
        exact ⟨v1, hv1⟩
      | ok u => exact ih h hv1

theorem runNodes_ok_spec {g g2 : TextureGraph T} {l : List Nat}
    (h : runNodes g l = some (Except.ok (), g2)) :
    g2.nodes = g.nodes ∧ g2.edges = g.edges ∧
      ∀ i ∈ l, ∃ v, resLookup g2.results i = some v := by
  induction l generalizing g with
  | nil =>
    simp only [runNodes, Option.some_inj, Prod.mk.injEq] at h
    rw [← h.2]
    exact ⟨rfl, rfl, by simp⟩
  | cons i rest ih =>
    simp only [runNodes] at h
    cases hg : generate_node g i with
    | none =>
      rw [hg] at h
      exact absurd h (by simp)
    | some p =>
      rw [hg] at h
      obtain ⟨r1, g1⟩ := p
      cases r1 with
      | error m => exact absurd h (by simp)
      | ok u =>
        obtain ⟨hn, he, hrest⟩ := ih h
        obtain ⟨hn1, he1, _, _⟩ := generate_node_frame hg
        refine ⟨hn.trans hn1, he.trans he1, ?_⟩
        intro j hj
        rcases List.mem_cons.mp hj with heq | hj'
        · subst heq
          obtain ⟨node, vals, _, _, _, _, heq1⟩ := generate_node_ok_state hg
          have hfresh : resLookup g1.results j = some (node.function.generate vals) := by
            rw [heq1]
            exact resLookup_resInsert_self _ _ _
          exact runNodes_preserves_entry h hfresh
        · exact hrest j hj'

theorem runMissing_all_cached {g : TextureGraph T} {l : List Nat}
    (h : ∀ i ∈ l, resContains g.results i = true) :
    runMissing g l = some (Except.ok (), g) := by
  induction l with
  | nil => rfl
  | cons i rest ih =>
    simp only [runMissing, if_pos (h i (List.mem_cons_self i rest))]
    exact ih (fun j hj => h j (List.mem_cons_of_mem i hj))

theorem missingEvals_all_cached {g : TextureGraph T} {l : List Nat}
    (h : ∀ i ∈ l, resContains g.results i = true) :
    missingEvals g l = [] := by
  induction l with
  | nil => rfl
  | cons i rest ih =>
    simp only [missingEvals, if_pos (h i (List.mem_cons_self i rest))]
    exact ih (fun j hj => h j (List.mem_cons_of_mem i hj))

theorem readyNode_congr {g1 g2 : TextureGraph T} (he : g2.edges = g1.edges) :
    readyNode g2 = readyNode g1 := by
  funext visited v
  simp [readyNode, incoming, he]

theorem topoOrder_congr {g1 g2 : TextureGraph T} (hn : g2.nodes.length = g1.nodes.length)
    (he : g2.edges = g1.edges) : topoOrder g2 = topoOrder g1 := by
  have haux : ∀ fuel visited, topoAux g2 fuel visited = topoAux g1 fuel visited := by
    intro fuel
    induction fuel with
    | zero => intro visited; rfl
    | succ fuel ih =>
      intro visited
      simp only [topoAux, hn, readyNode_congr he]
      cases (List.range g1.nodes.length).find? (readyNode g1 visited) with
      | none => rfl
      | some v => simp only [ih]
  rw [topoOrder, topoOrder, hn, haux]

/-! ### Correctness of the topological visitor -/

theorem contains_eq_decide_mem (l : List Nat) (v : Nat) :
    l.contains v = decide (v ∈ l) := by
  induction l with
  | nil => simp
  | cons x xs ih => by_cases h : v = x <;> simp [List.contains_cons, ih, h]

/-- On an acyclic graph, any proper subset of the nodes leaves some node
ready: otherwise every unvisited node has an unvisited predecessor, and
following predecessors long enough closes a cycle. -/
theorem exists_ready (g : TextureGraph T) (visited : List Nat)
    (hwf : ∀ e ∈ g.edges, e.src < g.nodes.length ∧ e.dest < g.nodes.length)
    (hac : is_cyclic_directed g = false)
    (hnotall : ∃ v, v < g.nodes.length ∧ v ∉ visited) :
    ∃ v, v < g.nodes.length ∧ readyNode g visited v = true := by
  by_contra hno
  push_neg at hno
  have hpred : ∀ v, v < g.nodes.length → v ∉ visited →
      ∃ u, (u < g.nodes.length ∧ u ∉ visited) ∧ hasEdge g.edges u v := by
    intro v hv hnv
    have hnr := hno v hv
    rw [readyNode] at hnr
    have hcv : visited.contains v = false := by
      rw [contains_eq_decide_mem]
      simp [hnv]
    rw [hcv] at hnr
    simp only [Bool.not_false, Bool.true_and, Bool.not_eq_true] at hnr
    obtain ⟨e, he, hesrc⟩ := List.all_eq_false.mp hnr
    have hemem : e ∈ g.edges := List.mem_of_mem_filter he
    have hedest : e.dest = v := by
      have := List.of_mem_filter he
      simpa [beq_iff_eq] using this
    have hnsrc : e.src ∉ visited := by
      intro hin
      apply hesrc
      rw [contains_eq_decide_mem]
      simp [hin]
    exact ⟨e.src, ⟨(hwf e hemem).1, hnsrc⟩, e, hemem, rfl, hedest⟩
  obtain ⟨v0, hv0, hnv0⟩ := hnotall
  have hstep : ∀ x : { x : Nat // x < g.nodes.length ∧ x ∉ visited },
      ∃ u : { u : Nat // u < g.nodes.length ∧ u ∉ visited },
        hasEdge g.edges u.1 x.1 := by
    rintro ⟨x, hx1, hx2⟩
    obtain ⟨u, hu, he⟩ := hpred x hx1 hx2
    exact ⟨⟨u, hu⟩, he⟩
  choose next hnext using hstep
  let w : Nat → { x : Nat // x < g.nodes.length ∧ x ∉ visited } :=
    fun k => Nat.rec ⟨v0, hv0, hnv0⟩ (fun _ prev => next prev) k
  have hedge : ∀ k, hasEdge g.edges (w (k + 1)).1 (w k).1 := fun k => hnext (w k)
  have hmaps : ∀ i ∈ Finset.range (g.nodes.length + 1),
      (w i).1 ∈ Finset.range g.nodes.length := by
    intro i _
    rw [Finset.mem_range]
    exact (w i).2.1
  obtain ⟨i, hi, j, hj, hij, hfij⟩ :=
    Finset.exists_ne_map_eq_of_card_lt_of_maps_to
      (by simp : (Finset.range g.nodes.length).card
        < (Finset.range (g.nodes.length + 1)).card) hmaps
  simp only [Finset.mem_range] at hi hj
  have key : ∀ i j : Nat, i < j → j ≤ g.nodes.length → (w i).1 = (w j).1 → False := by
    intro i j hlt hjn hfeq
    have hwalk : FWalk g.edges (fun k => (w (j - k)).1) (j - i) ((w i).1) ((w i).1) := by
      refine ⟨?_, ?_, ?_⟩
      · show (w (j - 0)).1 = (w i).1
        simpa using hfeq.symm
      · show (w (j - (j - i))).1 = (w i).1
        have : j - (j - i) = i := by omega
        rw [this]
      · intro k hk
        have h1 : j - k = (j - (k + 1)) + 1 := by omega
        show hasEdge g.edges (w (j - k)).1 (w (j - (k + 1))).1
        rw [h1]
        exact hedge (j - (k + 1))
    have hp : pathB g.edges g.nodes.length ((w i).1) ((w i).1) = true :=
      pathB_of_fwalk hwalk (by omega) (by omega)
    have hcyc : is_cyclic_directed g = true := by
      simp only [is_cyclic_directed, List.any_eq_true]
      exact ⟨(w i).1, List.mem_range.mpr (w i).2.1, hp⟩
    rw [hac] at hcyc
    exact Bool.false_ne_true hcyc
  rcases Nat.lt_or_ge i j with hlt | hge
  · exact key i j hlt (by omega) hfij
  · exact key j i (by omega) (by omega) hfij.symm

/-- Main loop invariant of the `Topo` visitor: starting from any
well-formed visited prefix with enough fuel, the emitted list completes
the visited list to a duplicate-free cover of all nodes, and every edge
into an emitted node comes from an earlier node. -/
theorem topoAux_spec (g : TextureGraph T)
    (hwf : ∀ e ∈ g.edges, e.src < g.nodes.length ∧ e.dest < g.nodes.length)
    (hac : is_cyclic_directed g = false) :
    ∀ fuel visited, visited.Nodup → (∀ v ∈ visited, v < g.nodes.length) →
      g.nodes.length ≤ visited.length + fuel →
      (visited ++ topoAux g fuel visited).Nodup ∧
      (∀ v, v < g.nodes.length → v ∈ visited ∨ v ∈ topoAux g fuel visited) ∧
      (∀ v ∈ topoAux g fuel visited, v < g.nodes.length) ∧
      (∀ e ∈ g.edges, ∀ o1 o2, topoAux g fuel visited = o1 ++ e.dest :: o2 →
        e.src ∈ visited ++ o1) := by
  intro fuel
  induction fuel with
  | zero =>
    intro visited hnodup hbound hfuel
    have hcover : ∀ v, v < g.nodes.length → v ∈ visited := by
      intro v hv
      have hsub : visited.toFinset ⊆ Finset.range g.nodes.length := by
        intro x hx
        rw [List.mem_toFinset] at hx
        rw [Finset.mem_range]
        exact hbound x hx
      have hcard : (Finset.range g.nodes.length).card ≤ visited.toFinset.card := by
        rw [Finset.card_range, List.toFinset_card_of_nodup hnodup]
        omega
      have heq : visited.toFinset = Finset.range g.nodes.length :=
        Finset.eq_of_subset_of_card_le hsub hcard
      rw [← List.mem_toFinset, heq, Finset.mem_range]
      exact hv
    refine ⟨by simpa [topoAux] using hnodup, ?_, by simp [topoAux], ?_⟩
    · intro v hv
      exact Or.inl (hcover v hv)
    · intro e _ o1 o2 hsplit
      rw [topoAux] at hsplit
      exact absurd hsplit.symm (List.append_ne_nil_of_right_ne_nil o1 (by simp))
  | succ fuel ih =>
    intro visited hnodup hbound hfuel
    rw [topoAux]
    cases hfind : (List.range g.nodes.length).find? (readyNode g visited) with
    | none =>
      have hcover : ∀ v, v < g.nodes.length → v ∈ visited := by
        intro v hv
        by_contra hnv
        obtain ⟨u, hu1, hu2⟩ := exists_ready g visited hwf hac ⟨v, hv, hnv⟩
        have := List.find?_eq_none.mp hfind u (List.mem_range.mpr hu1)
        exact this hu2
      refine ⟨by simpa using hnodup, ?_, by simp, ?_⟩
      · intro v hv
        exact Or.inl (hcover v hv)
      · intro e _ o1 o2 hsplit
        exact absurd hsplit.symm (List.append_ne_nil_of_right_ne_nil o1 (by simp))
    | some v =>
      have hvlt : v < g.nodes.length :=
        List.mem_range.mp (List.mem_of_find?_eq_some hfind)
      have hready : readyNode g visited v = true := List.find?_some hfind
      have hvnot : v ∉ visited := by
        rw [readyNode] at hready
        intro hin
        have : visited.contains v = true := by
          rw [contains_eq_decide_mem]
          simp [hin]
        rw [this] at hready
        simp at hready
      have hpreds : ∀ e ∈ incoming g v, e.src ∈ visited := by
        intro e he
        rw [readyNode] at hready
        simp only [Bool.and_eq_true, List.all_eq_true] at hready
        have := hready.2 e he
        rw [contains_eq_decide_mem] at this
        simpa using this
      have hnodup' : (visited ++ [v]).Nodup := by
        rw [List.nodup_append]
        exact ⟨hnodup, List.nodup_singleton v, by simpa using hvnot⟩
      have hbound' : ∀ x ∈ visited ++ [v], x < g.nodes.length := by
        intro x hx
        rcases List.mem_append.mp hx with hx1 | hx1
        · exact hbound x hx1
        · rw [List.mem_singleton.mp hx1]
          exact hvlt
      have hfuel' : g.nodes.length ≤ (visited ++ [v]).length + fuel := by
        rw [List.length_append, List.length_singleton]
        omega
      obtain ⟨ih1, ih2, ih3, ih4⟩ := ih (visited ++ [v]) hnodup' hbound' hfuel'
      refine ⟨?_, ?_, ?_, ?_⟩
      · rw [show visited ++ v :: topoAux g fuel (visited ++ [v])
            = (visited ++ [v]) ++ topoAux g fuel (visited ++ [v]) by simp]
        exact ih1
      · intro x hx
        rcases ih2 x hx with hx1 | hx1
        · rcases List.mem_append.mp hx1 with hx2 | hx2
          · exact Or.inl hx2
          · exact Or.inr (by rw [List.mem_singleton.mp hx2]; exact List.mem_cons_self _ _)
        · exact Or.inr (List.mem_cons_of_mem v hx1)
      · intro x hx
        rcases List.mem_cons.mp hx with hx1 | hx1
        · rw [hx1]
          exact hvlt
        · exact ih3 x hx1
      · intro e he o1 o2 hsplit
        cases o1 with
        | nil =>
          simp only [List.nil_append, List.cons.injEq] at hsplit
          obtain ⟨hde, _⟩ := hsplit
          have hein : e ∈ incoming g v := by
            rw [incoming, List.mem_filter]
            exact ⟨he, by simp [hde]⟩
          rw [List.append_nil]
          exact hpreds e hein
        | cons x o1' =>
          simp only [List.cons_append, List.cons.injEq] at hsplit
          obtain ⟨hxv, hsplit'⟩ := hsplit
          have := ih4 e he o1' o2 hsplit'
          rw [hxv] at this
          simpa using this

/-- On a well-formed acyclic graph the `Topo` visitor emits every node
exactly once. -/
theorem topoOrder_perm (g : TextureGraph T)
    (hwf : ∀ e ∈ g.edges, e.src < g.nodes.length ∧ e.dest < g.nodes.length)
    (hac : is_cyclic_directed g = false) :
    (topoOrder g).Perm (List.range g.nodes.length) := by
  obtain ⟨h1, h2, h3, _⟩ := topoAux_spec g hwf hac g.nodes.length [] (by simp)
    (by simp) (by simp)
  rw [List.nil_append] at h1
  apply List.perm_of_nodup_nodup_toFinset_eq h1 (List.nodup_range _)
  apply Finset.Subset.antisymm
  · intro x hx
    rw [List.mem_toFinset] at hx
    rw [List.mem_toFinset, List.mem_range]
    exact h3 x hx
  · intro x hx
    rw [List.mem_toFinset, List.mem_range] at hx
    rw [List.mem_toFinset]
    rcases h2 x hx with h | h
    · exact absurd h (by simp)
    · exact h

/-- The emitted order is topological: the source of every edge appears
strictly before its destination. -/
theorem topoOrder_topological (g : TextureGraph T)
    (hwf : ∀ e ∈ g.edges, e.src < g.nodes.length ∧ e.dest < g.nodes.length)
    (hac : is_cyclic_directed g = false) :
    ∀ e ∈ g.edges, ∀ o1 o2, topoOrder g = o1 ++ e.dest :: o2 → e.src ∈ o1 := by
  intro e he o1 o2 hsplit
  obtain ⟨_, _, _, h4⟩ := topoAux_spec g hwf hac g.nodes.length [] (by simp)
    (by simp) (by simp)
  have := h4 e he o1 o2 hsplit
  rwa [List.nil_append] at this

theorem runNodes_frame_lookup {g g2 : TextureGraph T} {l : List Nat}
    {r : Except String Unit} (h : runNodes g l = some (r, g2)) :
    ∀ x, x ∉ l → resLookup g2.results x = resLookup g.results x := by
  induction l generalizing g with
  | nil =>
    simp only [runNodes, Option.some_inj, Prod.mk.injEq] at h
    rw [← h.2]
    exact fun _ _ => rfl
  | cons i rest ih =>
    intro x hx
    have hxi : x ≠ i := fun heq => hx (heq ▸ List.mem_cons_self i rest)
    have hxr : x ∉ rest := fun hin => hx (List.mem_cons_of_mem i hin)
    simp only [runNodes] at h
    cases hg : generate_node g i with
    | none =>
      rw [hg] at h
      exact absurd h (by simp)
    | some p =>
      rw [hg] at h
      obtain ⟨r1, g1⟩ := p
      have hframe := (generate_node_frame hg).2.2.2 x hxi
      cases r1 with
      | error m =>
        simp only [Option.some_inj, Prod.mk.injEq] at h
        rw [← h.2]
        exact hframe
      | ok u => exact (ih h x hxr).trans hframe

theorem runNodes_ok_append_split {g g2 : TextureGraph T} {l1 l2 : List Nat}
    (h : runNodes g (l1 ++ l2) = some (Except.ok (), g2)) :
    ∃ g1, runNodes g l1 = some (Except.ok (), g1) ∧
      runNodes g1 l2 = some (Except.ok (), g2) := by
  induction l1 generalizing g with
  | nil => exact ⟨g, rfl, h⟩
  | cons i rest ih =>
    rw [List.cons_append] at h
    simp only [runNodes] at h ⊢
    cases hg : generate_node g i with
    | none =>
      rw [hg] at h
      exact absurd h (by simp)
    | some p =>
      rw [hg] at h
      obtain ⟨r1, g1⟩ := p
      cases r1 with
      | error m => exact absurd h (by simp)
      | ok u => exact ih h

/-- A failing run is a successful prefix followed by the first failing
node; the failure leaves the state of the successful prefix untouched. -/
theorem runNodes_error_split {g g2 : TextureGraph T} {l : List Nat} {m : String}
    (h : runNodes g l = some (Except.error m, g2)) :
    ∃ k i, k < l.length ∧ l[k]? = some i ∧
      runNodes g (l.take k) = some (Except.ok (), g2) ∧
      generate_node g2 i = some (Except.error m, g2) := by
  induction l generalizing g with
  | nil => exact absurd h (by simp [runNodes])
  | cons i rest ih =>
    simp only [runNodes] at h
    cases hg : generate_node g i with
    | none =>
      rw [hg] at h
      exact absurd h (by simp)
    | some p =>
      rw [hg] at h
      obtain ⟨r1, g1⟩ := p
      cases r1 with
      | error m1 =>
        simp only [Option.some_inj, Prod.mk.injEq, Except.error.injEq] at h
        obtain ⟨hm, hg2⟩ := h
        have hg1 : g1 = g := generate_node_error_state hg
        refine ⟨0, i, by simp, by simp, ?_, ?_⟩
        · rw [List.take_zero, runNodes, ← hg2, hg1]
        · rw [← hg2, hg1, hg, hm, hg1]
      | ok u =>
        obtain ⟨k, j, hk, hkj, hpre, hfail⟩ := ih h
        refine ⟨k + 1, j, by simpa using hk, by simpa using hkj, ?_, hfail⟩
        rw [List.take_succ_cons]
        simp only [runNodes, hg]
        exact hpre

theorem runNodes_isSome {g : TextureGraph T} {l : List Nat}
    (h : ∀ i ∈ l, i < g.nodes.length) : (runNodes g l).isSome = true := by
  induction l generalizing g with
  | nil => rfl
  | cons i rest ih =>
    simp only [runNodes]
    cases hg : generate_node g i with
    | none =>
      have := generate_node_panic_iff.mp hg
      rw [List.getElem?_eq_none_iff] at this
      have := h i (List.mem_cons_self i rest)
      omega
    | some p =>
      obtain ⟨r1, g1⟩ := p
      cases r1 with
      | error m => rfl
      | ok u =>
        apply ih
        intro j hj
        rw [(generate_node_frame hg).1]
        exact h j (List.mem_cons_of_mem i hj)

/-- The states reachable through the public operations of `TextureGraph`,
starting from `new`. -/
inductive Reachable : TextureGraph T → Prop
  | init : Reachable new
  | add_node_step (g : TextureGraph T) (n : Node T) :
      Reachable g → Reachable (add_node g n).2
  | add_edge_step (g : TextureGraph T) (s d t : Nat) :
      Reachable g → Reachable (add_edge g s d t).2
  | invalidate_step (g : TextureGraph T) (s : Nat) :
      Reachable g → s < node_count g → Reachable (invalidate_nodes g s)
  | generate_node_step (g g2 : TextureGraph T) (i : Nat) (r : Except String Unit) :
      Reachable g → generate_node g i = some (r, g2) → Reachable g2
  | generate_graph_step (g g2 : TextureGraph T) (r : Except String Unit) :
      Reachable g → generate_graph g = some (r, g2) → Reachable g2
  | generate_graph_missing_step (g g2 : TextureGraph T) (r : Except String Unit) :
      Reachable g → generate_graph_missing g = some (r, g2) → Reachable g2

/-- Every reachable state satisfies the invariant. -/
theorem reachable_inv {g : TextureGraph T} (h : Reachable g) : Inv g := by
  induction h with
  | init => exact inv_new
  | add_node_step g n _ ih => exact inv_add_node g n ih
  | add_edge_step g s d t _ ih => exact inv_add_edge g s d t ih
  | invalidate_step g s _ _ ih => exact inv_invalidate g s ih
  | generate_node_step g g2 i r _ hgen ih => exact inv_generate_node ih hgen
  | generate_graph_step g g2 r _ hgen ih => exact inv_runNodes ih hgen
  | generate_graph_missing_step g g2 r _ hgen ih => exact inv_runMissing ih hgen

end TextureGraph

open TextureGraph

/-! ### Concrete scenario graphs (the `Const`/`Add`/`Double`-style test
transformers of `graph.rs`, over `T = Nat`) -/

/-- Arity-0 transformer returning the constant `c`. -/
def constT (c : Nat) : Transformer Nat :=
  { generate := fun _ => c, inputs := 0 }

/-- Arity-2 summing transformer. -/
def addT : Transformer Nat :=
  { generate := fun l => l.foldr (fun a b => a + b) 0, inputs := 2 }

/-- Arity-1 pass-through transformer. -/
def idT : Transformer Nat :=
  { generate := fun l => l.foldr (fun a b => a + b) 0, inputs := 1 }

/-- `A = Const 1`. -/
def gA : TextureGraph Nat := (TextureGraph.add_node TextureGraph.new ⟨"A", constT 1⟩).2

/-- `A`, `B = Const 2`. -/
def gAB : TextureGraph Nat := (TextureGraph.add_node gA ⟨"B", constT 2⟩).2

/-- `A`, `B`, `C = Add` (arity 2), no edges yet. -/
def gABC0 : TextureGraph Nat := (TextureGraph.add_node gAB ⟨"C", addT⟩).2

/-- Edge `A → C` at slot 0 added. -/
def gABC1 : TextureGraph Nat := (TextureGraph.add_edge gABC0 0 2 0).2

/-- The scenario graph: `A → C` slot 0, `B → C` slot 1. -/
def gABC : TextureGraph Nat := (TextureGraph.add_edge gABC1 1 2 1).2

/-- Two arity-1 nodes `X`, `Y`. -/
def gXY : TextureGraph Nat :=
  (TextureGraph.add_node (TextureGraph.add_node TextureGraph.new ⟨"X", idT⟩).2 ⟨"Y", idT⟩).2

/-- Edge `X → Y` at slot 0: adding `Y → X` now would close a cycle. -/
def gXYe : TextureGraph Nat := (TextureGraph.add_edge gXY 0 1 0).2

/-- `Reachable` evidence for the scenario graphs. -/
theorem reachable_gABC1 : Reachable gABC1 :=
  Reachable.add_edge_step gABC0 0 2 0
    (Reachable.add_node_step gAB ⟨"C", addT⟩
      (Reachable.add_node_step gA ⟨"B", constT 2⟩
        (Reachable.add_node_step TextureGraph.new ⟨"A", constT 1⟩ Reachable.init)))

theorem reachable_gABC : Reachable gABC :=
  Reachable.add_edge_step gABC1 1 2 1 reachable_gABC1

theorem reachable_gXYe : Reachable gXYe :=
  Reachable.add_edge_step gXY 0 1 0
    (Reachable.add_node_step _ ⟨"Y", idT⟩
      (Reachable.add_node_step TextureGraph.new ⟨"X", idT⟩ Reachable.init))

namespace TextureGraph

variable {T : Type}

/-! ### The claims -/

/-- C1: whenever the tentative insertion of `add_edge` (the slot's old
occupant removed if there was one, the new edge added) would make the edge
relation cyclic, the call fails with the cycle error and leaves the node
list, the edge multiset (the restored old edge included), the result cache
and the `cached` flag exactly as before the call. -/
theorem C1_cycle_rejection_rollback (g : TextureGraph T) (s d t : Nat)
    (hchecks : checksPass g s d t = true)
    (hcyc : is_cyclic_directed (tentativeGraph g s d t) = true) :
    (add_edge g s d t).1 = Except.error "Edge would create cycle" ∧
    (add_edge g s d t).2.nodes = g.nodes ∧
    (add_edge g s d t).2.edges.Perm g.edges ∧
    (add_edge g s d t).2.results = g.results ∧
    (add_edge g s d t).2.cached = g.cached := by
  rcases add_edge_spec g s d t with ⟨hcp, _, _⟩ | ⟨_, _, hcase⟩ | ⟨_, hcyc', _⟩
  · rw [hchecks] at hcp
    exact absurd hcp (by simp)
  · rcases hcase with ⟨hf, heq⟩ | ⟨old, hf, heq⟩
    · rw [heq]
      exact ⟨rfl, rfl, List.Perm.refl _, rfl, rfl⟩
    · rw [heq]
      have hmem : old ∈ g.edges := List.mem_of_find?_eq_some hf
      exact ⟨rfl, rfl,
        (List.perm_append_singleton _ _).trans (List.perm_cons_erase hmem).symm,
        rfl, rfl⟩
  · rw [hcyc] at hcyc'
    exact absurd hcyc' (by simp)

theorem C1_witness :
    checksPass gXYe 1 0 0 = true ∧
    is_cyclic_directed (tentativeGraph gXYe 1 0 0) = true ∧
    ((add_edge gXYe 1 0 0).1 = Except.error "Edge would create cycle" ∧
      (add_edge gXYe 1 0 0).2.nodes = gXYe.nodes ∧
      (add_edge gXYe 1 0 0).2.edges.Perm gXYe.edges ∧
      (add_edge gXYe 1 0 0).2.results = gXYe.results ∧
      (add_edge gXYe 1 0 0).2.cached = gXYe.cached) :=
  ⟨rfl, rfl, C1_cycle_rejection_rollback gXYe 1 0 0 rfl rfl⟩

/-- C2: in every state reachable through the public operations — also the
states failed `add_edge` calls leave behind — the edge relation is acyclic,
both as the executable whole-graph cycle check and as the propositional
transitive closure. -/
theorem C2_always_acyclic (g : TextureGraph T) (h : Reachable g) :
    is_cyclic_directed g = false ∧
    ¬ ∃ x, Relation.TransGen (hasEdge g.edges) x x := by
  obtain ⟨hwf, _, _, hac⟩ := reachable_inv h
  refine ⟨hac, ?_⟩
  rintro ⟨x, hx⟩
  exact (is_cyclic_eq_false_iff g
    (fun e he => ⟨(hwf e he).1, (hwf e he).2.1⟩)).mp hac x hx

theorem C2_witness :
    is_cyclic_directed (add_edge gXYe 1 0 0).2 = false ∧
    ¬ ∃ x, Relation.TransGen (hasEdge ((add_edge gXYe 1 0 0).2).edges) x x :=
  C2_always_acyclic (add_edge gXYe 1 0 0).2
    (Reachable.add_edge_step gXYe 1 0 0 reachable_gXYe)

/-- C3 (code bug): on the scenario `A = Const 1`, `B = Const 2`, `C = Add`
with edges `A → C` slot 0 and `B → C` slot 1, `generate_graph` succeeds and
the cache holds `3` for `C`, but `get_result C` returns `None`: the
`cached` flag it consults is never set to `true` anywhere in the code, so
`get_result` never returns a value (and would panic if the flag were ever
set while an entry is missing).  `get_generated_node` returns the cached
`3`. -/
theorem C3_get_result_bug :
    (generate_graph gABC).map (fun p => p.1) = some (Except.ok ()) ∧
    (generate_graph gABC).map (fun p => resLookup p.2.results 2) = some (some 3) ∧
    (generate_graph gABC).map (fun p => get_generated_node p.2 2) = some (some 3) ∧
    (generate_graph gABC).map (fun p => get_result p.2 2) = some (some none) ∧
    (generate_graph gABC).map (fun p => p.2.cached) = some false :=
  ⟨rfl, rfl, rfl, rfl, rfl⟩

/-- C9: in every reachable state at most one incoming edge occupies each
`(destination, slot)` pair and every edge's slot lies below its
destination's arity; a committed `add_edge` into an empty slot grows the
edge count by exactly one, a committed replacement leaves it unchanged. -/
theorem C9_slot_invariants_and_counts (g : TextureGraph T) (h : Reachable g) :
    SlotUnique g ∧
    (∀ e ∈ g.edges, e.weight < arityOf g e.dest) ∧
    (∀ s d t g2, add_edge g s d t = (Except.ok (), g2) →
      (findSlot g d t = none → g2.edges.length = g.edges.length + 1) ∧
      (∀ old, findSlot g d t = some old → g2.edges.length = g.edges.length)) := by
  obtain ⟨hwf, hsu, _, _⟩ := reachable_inv h
  refine ⟨hsu, fun e he => (hwf e he).2.2.2, ?_⟩
  intro s d t g2 hok
  rcases add_edge_spec g s d t with ⟨_, m, heq⟩ | ⟨_, _, hcase⟩ | ⟨_, _, hcase⟩
  · rw [heq] at hok
    exact absurd hok (by simp)
  · rcases hcase with ⟨_, heq⟩ | ⟨old, _, heq⟩ <;>
      (rw [heq] at hok; exact absurd hok (by simp))
  · rcases hcase with ⟨hf, heq⟩ | ⟨old, hf, heq⟩
    · rw [heq] at hok
      simp only [Prod.mk.injEq] at hok
      constructor
      · intro _
        rw [← hok.2]
        simp
      · intro old hfold
        rw [hf] at hfold
        exact absurd hfold (by simp)
    · rw [heq] at hok
      simp only [Prod.mk.injEq] at hok
      constructor
      · intro hfnone
        rw [hf] at hfnone
        exact absurd hfnone (by simp)
      · intro old' _
        rw [← hok.2]
        have hmem : old ∈ g.edges := List.mem_of_find?_eq_some hf
        have hpos : 0 < g.edges.length := List.length_pos.mpr (by
          intro hnil
          rw [hnil] at hmem
          cases hmem)
        have := List.length_erase_of_mem hmem
        show ((g.edges.erase old) ++ [Edge.mk s d t]).length = g.edges.length
        rw [List.length_append]
        simp only [List.length_singleton]
        omega

theorem C9_witness :
    SlotUnique gABC ∧
    (∀ e ∈ gABC.edges, e.weight < arityOf gABC e.dest) ∧
    (∀ s d t g2, add_edge gABC s d t = (Except.ok (), g2) →
      (findSlot gABC d t = none → g2.edges.length = gABC.edges.length + 1) ∧
      (∀ old, findSlot gABC d t = some old → g2.edges.length = gABC.edges.length)) :=
  C9_slot_invariants_and_counts gABC reachable_gABC

/-- C4: `generate_node` fails — leaving the graph and hence the cache
untouched — when the in-degree differs from the arity, else when some
predecessor value is missing, else when the transformer rejects the
inputs; on success it caches `generate` applied to the predecessors'
cached values taken in slot-ascending order, which is a sorted permutation
of the incoming `(slot, source)` pairs. -/
theorem C4_generate_node_cases (g : TextureGraph T) (i : Nat) (node : Node T)
    (hnode : g.nodes[i]? = some node) :
    ((incoming g i).length ≠ node.function.inputs →
      generate_node g i = some (Except.error "Node not completed", g)) ∧
    (sortBySlot ((incoming g i).map (fun e => (e.weight, e.src)))).Perm
      ((incoming g i).map (fun e => (e.weight, e.src))) ∧
    (sortBySlot ((incoming g i).map (fun e => (e.weight, e.src)))).Pairwise
      (fun a b => a.1 ≤ b.1) ∧
    ((incoming g i).length = node.function.inputs →
      (lookupAll g.results (targetsOf g i) = none →
        generate_node g i =
          some (Except.error "Predecessors of node not generated", g)) ∧
      (∀ vals, lookupAll g.results (targetsOf g i) = some vals →
        (node.function.is_valid vals = false →
          generate_node g i = some (Except.error "Input images not valid", g)) ∧
        (node.function.is_valid vals = true →
          generate_node g i = some (Except.ok (),
            { g with results :=
                resInsert i (node.function.generate vals) g.results })))) := by
  rcases generate_node_spec g i with ⟨hn, _⟩ | ⟨node', hnode', hbr⟩
  · rw [hnode] at hn
    exact absurd hn (by simp)
  · rw [hnode] at hnode'
    injection hnode' with hnn
    subst hnn
    refine ⟨?_, sortBySlot_perm _, sortBySlot_sorted _, ?_⟩
    · intro hne
      rcases hbr with ⟨_, heq⟩ | ⟨hlen, _⟩
      · exact heq
      · exact absurd hlen.symm hne
    · intro hlen
      rcases hbr with ⟨hne, _⟩ | ⟨_, hbr2⟩
      · exact absurd hlen.symm hne
      constructor
      · intro hm
        rcases hbr2 with ⟨_, heq⟩ | ⟨vals, hm', _⟩
        · exact heq
        · rw [hm] at hm'
          exact absurd hm' (by simp)
      · intro vals hm
        rcases hbr2 with ⟨hm', _⟩ | ⟨vals', hm', hbr3⟩
        · rw [hm] at hm'
          exact absurd hm' (by simp)
        · rw [hm] at hm'
          injection hm' with hvv
          subst hvv
          constructor
          · intro hv
            rcases hbr3 with ⟨_, heq⟩ | ⟨hv', _⟩
            · exact heq
            · rw [hv] at hv'
              exact absurd hv' (by simp)
          · intro hv
            rcases hbr3 with ⟨hv', _⟩ | ⟨_, heq⟩
            · rw [hv] at hv'
              exact absurd hv' (by simp)
            · exact heq

theorem C4_witness :
    gABC1.nodes[2]? = some (Node.mk "C" addT) ∧
    (((incoming gABC1 2).length ≠ (Node.mk "C" addT).function.inputs →
      generate_node gABC1 2 = some (Except.error "Node not completed", gABC1)) ∧
    (sortBySlot ((incoming gABC1 2).map (fun e => (e.weight, e.src)))).Perm
      ((incoming gABC1 2).map (fun e => (e.weight, e.src))) ∧
    (sortBySlot ((incoming gABC1 2).map (fun e => (e.weight, e.src)))).Pairwise
      (fun a b => a.1 ≤ b.1) ∧
    ((incoming gABC1 2).length = (Node.mk "C" addT).function.inputs →
      (lookupAll gABC1.results (targetsOf gABC1 2) = none →
        generate_node gABC1 2 =
          some (Except.error "Predecessors of node not generated", gABC1)) ∧
      (∀ vals, lookupAll gABC1.results (targetsOf gABC1 2) = some vals →
        ((Node.mk "C" addT).function.is_valid vals = false →
          generate_node gABC1 2 = some (Except.error "Input images not valid", gABC1)) ∧
        ((Node.mk "C" addT).function.is_valid vals = true →
          generate_node gABC1 2 = some (Except.ok (),
            { gABC1 with results := resInsert 2 ((Node.mk "C" addT).function.generate vals) gABC1.results }))))) :=
  ⟨rfl, C4_generate_node_cases gABC1 2 (Node.mk "C" addT) rfl⟩

theorem take_take_of_le {α : Type _} : ∀ {m k : Nat} (l : List α), m ≤ k →
    (l.take k).take m = l.take m
  | 0, _, _, _ => by simp
  | m + 1, k + 1, [], _ => by simp
  | m + 1, k + 1, a :: l, h => by
    simp only [List.take_succ_cons]
    rw [take_take_of_le l (by omega)]

/-- Every node of a successful run prefix keeps, in the final state, the
cache value it held right after its own step. -/
theorem runNodes_retention {g g2 : TextureGraph T} {l : List Nat} {k : Nat}
    (hnodup : l.Nodup)
    (hpre : runNodes g (l.take k) = some (Except.ok (), g2)) :
    ∀ j, j < k → ∀ i, l[j]? = some i →
      ∃ gj v, runNodes g (l.take (j + 1)) = some (Except.ok (), gj) ∧
        resLookup gj.results i = some v ∧ resLookup g2.results i = some v := by
  intro j hj i hij
  have hdecomp : l.take k = l.take (j + 1) ++ (l.take k).drop (j + 1) := by
    conv_lhs => rw [← List.take_append_drop (j + 1) (l.take k)]
    rw [take_take_of_le l (by omega)]
  rw [hdecomp] at hpre
  obtain ⟨gj, hgj, hrest⟩ := runNodes_ok_append_split hpre
  have hmem_take : i ∈ l.take (j + 1) := by
    have hj1 : (l.take (j + 1))[j]? = some i := by
      rw [List.getElem?_take_of_lt (by omega)]
      exact hij
    exact List.getElem?_mem hj1
  obtain ⟨v, hv⟩ := (runNodes_ok_spec hgj).2.2 i hmem_take
  refine ⟨gj, v, hgj, hv, ?_⟩
  have hnotmid : i ∉ (l.take k).drop (j + 1) := by
    have hnk : (l.take k).Nodup := List.Nodup.sublist (List.take_sublist _ _) hnodup
    rw [hdecomp, List.nodup_append] at hnk
    exact fun hin => hnk.2.2 hmem_take hin
  rw [runNodes_frame_lookup hrest i hnotmid]
  exact hv

/-- C7: on a well-formed acyclic graph, `generate_graph` runs
`generate_node` over `topoOrder g`, which enumerates every node exactly
once with every edge's source strictly before its destination; the run
never panics; on success every visited node is cached; on failure the
returned state is exactly the state left by the successful prefix, the
reported error is the first failure encountered, and every node evaluated
before it keeps the value its own step computed (no rollback). -/
theorem C7_generate_graph_topological (g : TextureGraph T)
    (hwf : WFEdges g) (hac : is_cyclic_directed g = false) :
    generate_graph g = runNodes g (topoOrder g) ∧
    (topoOrder g).Perm (List.range g.nodes.length) ∧
    (∀ e ∈ g.edges, ∀ o1 o2, topoOrder g = o1 ++ e.dest :: o2 → e.src ∈ o1) ∧
    (generate_graph g).isSome = true ∧
    (∀ g2, generate_graph g = some (Except.ok (), g2) →
      ∀ i ∈ topoOrder g, ∃ v, resLookup g2.results i = some v) ∧
    (∀ m g2, generate_graph g = some (Except.error m, g2) →
      ∃ k i, k < (topoOrder g).length ∧ (topoOrder g)[k]? = some i ∧
        runNodes g ((topoOrder g).take k) = some (Except.ok (), g2) ∧
        generate_node g2 i = some (Except.error m, g2) ∧
        (∀ j, j < k → ∀ i2, (topoOrder g)[j]? = some i2 →
          ∃ gj v, runNodes g ((topoOrder g).take (j + 1)) = some (Except.ok (), gj) ∧
            resLookup gj.results i2 = some v ∧
            resLookup g2.results i2 = some v)) := by
  have hbound : ∀ e ∈ g.edges, e.src < g.nodes.length ∧ e.dest < g.nodes.length :=
    fun e he => ⟨(hwf e he).1, (hwf e he).2.1⟩
  have hperm := topoOrder_perm g hbound hac
  have hnodup : (topoOrder g).Nodup := hperm.nodup_iff.mpr (List.nodup_range _)
  refine ⟨rfl, hperm, topoOrder_topological g hbound hac, ?_, ?_, ?_⟩
  · apply runNodes_isSome
    intro i hi
    exact List.mem_range.mp (hperm.mem_iff.mp hi)
  · intro g2 h2 i hi
    exact (runNodes_ok_spec h2).2.2 i hi
  · intro m g2 h2
    obtain ⟨k, i, hk, hki, hpre, hfail⟩ := runNodes_error_split h2
    exact ⟨k, i, hk, hki, hpre, hfail, fun j hjk i2 hji2 =>
      runNodes_retention hnodup hpre j hjk i2 hji2⟩

theorem C7_witness :
    WFEdges gABC ∧ is_cyclic_directed gABC = false ∧
    (generate_graph gABC = runNodes gABC (topoOrder gABC) ∧
    (topoOrder gABC).Perm (List.range gABC.nodes.length) ∧
    (∀ e ∈ gABC.edges, ∀ o1 o2, topoOrder gABC = o1 ++ e.dest :: o2 → e.src ∈ o1) ∧
    (generate_graph gABC).isSome = true ∧
    (∀ g2, generate_graph gABC = some (Except.ok (), g2) →
      ∀ i ∈ topoOrder gABC, ∃ v, resLookup g2.results i = some v) ∧
    (∀ m g2, generate_graph gABC = some (Except.error m, g2) →
      ∃ k i, k < (topoOrder gABC).length ∧ (topoOrder gABC)[k]? = some i ∧
        runNodes gABC ((topoOrder gABC).take k) = some (Except.ok (), g2) ∧
        generate_node g2 i = some (Except.error m, g2) ∧
        (∀ j, j < k → ∀ i2, (topoOrder gABC)[j]? = some i2 →
          ∃ gj v, runNodes gABC ((topoOrder gABC).take (j + 1))
              = some (Except.ok (), gj) ∧
            resLookup gj.results i2 = some v ∧
            resLookup g2.results i2 = some v))) :=
  ⟨by unfold WFEdges; decide, rfl,
    C7_generate_graph_topological gABC (by unfold WFEdges; decide) rfl⟩

/-- C10 counterexample: the claim asserts `generate_node` reports a
recoverable lookup failure for a stale `NodeIndex`; in the code its very
first step, `node_complete`, indexes `self.g[node_index]` and panics
(modelled `none`), here on the empty graph at index 0. -/
theorem C10_generate_node_panics :
    generate_node (TextureGraph.new : TextureGraph Nat) 0 = none := rfl

/-- C10 (amended): for a stale or foreign `NodeIndex`, `get_node` returns
`None` and `add_edge` returns an `Unknown node` error with the graph
untouched — but `generate_node` panics (crashes the process) via
`node_complete`'s direct indexing instead of reporting a recoverable
failure. -/
theorem C10_stale_index_handling (g : TextureGraph T) (i : Nat)
    (h : g.nodes[i]? = none) :
    get_node g i = none ∧
    (∀ d t, add_edge g i d t = (Except.error "Unknown node", g)) ∧
    (∀ s t, ∃ m, add_edge g s i t = (Except.error m, g)) ∧
    generate_node g i = none := by
  refine ⟨h, ?_, ?_, generate_node_panic_iff.mpr h⟩
  · intro d t
    simp [add_edge, h]
  · intro s t
    cases hs : g.nodes[s]? with
    | none => exact ⟨"Unknown node", by simp [add_edge, hs]⟩
    | some ns => exact ⟨"Unknown node", by simp [add_edge, hs, h]⟩

/-- The executable reachability test agrees with the reflexive-transitive
closure of the edge relation on well-bounded edge lists. -/
theorem reachableFromB_iff (g : TextureGraph T)
    (hwf : ∀ e ∈ g.edges, e.src < g.nodes.length ∧ e.dest < g.nodes.length)
    (a b : Nat) :
    reachableFromB g a b = true ↔ Relation.ReflTransGen (hasEdge g.edges) a b := by
  rw [reachableFromB, Bool.or_eq_true, beq_iff_eq,
    Relation.reflTransGen_iff_eq_or_transGen]
  constructor
  · rintro (heq | hp)
    · exact Or.inl heq.symm
    · exact Or.inr (pathB_transGen hp)
  · rintro (heq | ht)
    · exact Or.inl heq.symm
    · exact Or.inr (transGen_pathB hwf ht)

theorem invalidate_nodes_lookup (g : TextureGraph T) (X k : Nat) :
    resLookup (invalidate_nodes g X).results k =
      if !(reachableFromB g X k) then resLookup g.results k else none := by
  exact resLookup_filter g.results (fun x => !(reachableFromB g X x)) k

/-- C5: after `invalidate_nodes X` — called directly or by a committed
slot-replacing `add_edge` into destination `X` — the cache holds no entry
for `X` or any node forward-reachable from `X`, and holds the previous
entries unchanged for every other node. -/
theorem C5_invalidation_reachability (g : TextureGraph T) (h : Reachable g)
    (X : Nat) (_hX : X < node_count g) :
    (∀ k, Relation.ReflTransGen (hasEdge g.edges) X k →
        resLookup (invalidate_nodes g X).results k = none) ∧
    (∀ k, ¬ Relation.ReflTransGen (hasEdge g.edges) X k →
        resLookup (invalidate_nodes g X).results k = resLookup g.results k) ∧
    (∀ s t g2, findSlot g X t ≠ none → add_edge g s X t = (Except.ok (), g2) →
      (∀ k, Relation.ReflTransGen (hasEdge g2.edges) X k →
          resLookup g2.results k = none) ∧
      (∀ k, ¬ Relation.ReflTransGen (hasEdge g2.edges) X k →
          resLookup g2.results k = resLookup g.results k)) := by
  obtain ⟨hwf, hsu, hcc, hac⟩ := reachable_inv h
  have hbound : ∀ e ∈ g.edges, e.src < g.nodes.length ∧ e.dest < g.nodes.length :=
    fun e he => ⟨(hwf e he).1, (hwf e he).2.1⟩
  refine ⟨?_, ?_, ?_⟩
  · intro k hk
    rw [invalidate_nodes_lookup]
    rw [(reachableFromB_iff g hbound X k).mpr hk]
    rfl
  · intro k hk
    rw [invalidate_nodes_lookup]
    have : reachableFromB g X k = false := by
      cases hr : reachableFromB g X k with
      | false => rfl
      | true => exact absurd ((reachableFromB_iff g hbound X k).mp hr) hk
    rw [this]
    rfl
  · intro s t g2 hfne hok
    rcases add_edge_spec g s X t with ⟨_, m, heq⟩ | ⟨_, _, hcase⟩ | ⟨hcp, _, hcase⟩
    · rw [heq] at hok
      exact absurd hok (by simp)
    · rcases hcase with ⟨_, heq⟩ | ⟨old, _, heq⟩ <;>
        (rw [heq] at hok; exact absurd hok (by simp))
    · rcases hcase with ⟨hf, _⟩ | ⟨old, hf, heq⟩
      · exact absurd hf hfne
      · rw [heq] at hok
        simp only [Prod.mk.injEq, true_and] at hok
        obtain ⟨hs, hX', _, ht⟩ := checksPass_true hcp
        obtain ⟨hdest, hweight, hmem, as, bs, hsplit, herase, has⟩ := findSlot_split hf
        have hgT : ∀ e ∈ (g.edges.erase old) ++ [Edge.mk s X t],
            e.src < g.nodes.length ∧ e.dest < g.nodes.length := by
          intro e he
          rcases List.mem_append.mp he with he1 | he1
          · have := hwf e ((List.erase_sublist old g.edges).mem he1)
            exact ⟨this.1, this.2.1⟩
          · rw [List.mem_singleton.mp he1]
            exact ⟨hs, hX'⟩
        rw [← hok]
        set gT : TextureGraph T :=
          { g with edges := (g.edges.erase old) ++ [⟨s, X, t⟩], cached := false } with hgTdef
        have hbound2 : ∀ e ∈ gT.edges,
            e.src < gT.nodes.length ∧ e.dest < gT.nodes.length := hgT
        constructor
        · intro k hk
          rw [invalidate_nodes_lookup]
          rw [(reachableFromB_iff gT hbound2 X k).mpr hk]
          rfl
        · intro k hk
          rw [invalidate_nodes_lookup]
          have : reachableFromB gT X k = false := by
            cases hr : reachableFromB gT X k with
            | false => rfl
            | true => exact absurd ((reachableFromB_iff gT hbound2 X k).mp hr) hk
          rw [this]
          rfl

theorem C5_witness :
    Reachable gABC ∧ 0 < node_count gABC ∧
    ((∀ k, Relation.ReflTransGen (hasEdge gABC.edges) 0 k →
        resLookup (invalidate_nodes gABC 0).results k = none) ∧
     (∀ k, ¬ Relation.ReflTransGen (hasEdge gABC.edges) 0 k →
        resLookup (invalidate_nodes gABC 0).results k = resLookup gABC.results k) ∧
     (∀ s t g2, findSlot gABC 0 t ≠ none → add_edge gABC s 0 t = (Except.ok (), g2) →
       (∀ k, Relation.ReflTransGen (hasEdge g2.edges) 0 k →
          resLookup g2.results k = none) ∧
       (∀ k, ¬ Relation.ReflTransGen (hasEdge g2.edges) 0 k →
          resLookup g2.results k = resLookup gABC.results k))) :=
  ⟨reachable_gABC, by decide,
    C5_invalidation_reachability gABC reachable_gABC 0 (by decide)⟩

/-- C6: in every reachable state a node holds a cache entry only if it is
live and complete; consequently a committed `add_edge` into a previously
empty slot finds the destination uncached afterwards, although that path
performs no invalidation. -/
theorem C6_cached_only_if_complete (g : TextureGraph T) (h : Reachable g) :
    (∀ k v, resLookup g.results k = some v →
      ∃ node, g.nodes[k]? = some node ∧
        (incoming g k).length = node.function.inputs) ∧
    (∀ s d t g2, findSlot g d t = none → add_edge g s d t = (Except.ok (), g2) →
      resLookup g2.results d = none) := by
  obtain ⟨hwf, hsu, hcc, hac⟩ := reachable_inv h
  constructor
  · intro k v hkv
    obtain ⟨h1, h2⟩ := hcc (k, v) (resLookup_mem hkv)
    cases hnode : g.nodes[k]? with
    | none =>
      rw [List.getElem?_eq_none_iff] at hnode
      omega
    | some node =>
      refine ⟨node, rfl, ?_⟩
      rw [h2]
      simp [arityOf, hnode]
  · intro s d t g2 hf hok
    rcases add_edge_spec g s d t with ⟨_, m, heq⟩ | ⟨_, _, hcase⟩ | ⟨hcp, _, hcase⟩
    · rw [heq] at hok
      exact absurd hok (by simp)
    · rcases hcase with ⟨_, heq⟩ | ⟨old, _, heq⟩ <;>
        (rw [heq] at hok; exact absurd hok (by simp))
    · rcases hcase with ⟨_, heq⟩ | ⟨old, hfold, _⟩
      · rw [heq] at hok
        simp only [Prod.mk.injEq, true_and] at hok
        rw [← hok]
        show resLookup g.results d = none
        cases hlook : resLookup g.results d with
        | none => rfl
        | some v =>
          exfalso
          obtain ⟨_, h2⟩ := hcc (d, v) (resLookup_mem hlook)
          obtain ⟨_, _, _, ht⟩ := checksPass_true hcp
          obtain ⟨e, he, hed, hew⟩ := slot_filled g d t hwf hsu h2 ht
          have := List.find?_eq_none.mp hf e he
          simp only [Bool.and_eq_true, beq_iff_eq] at this
          exact this ⟨hed, hew⟩
      · rw [hfold] at hf
        exact absurd hf (by simp)

theorem C6_witness :
    Reachable gABC1 ∧
    ((∀ k v, resLookup gABC1.results k = some v →
      ∃ node, gABC1.nodes[k]? = some node ∧
        (incoming gABC1 k).length = node.function.inputs) ∧
     (∀ s d t g2, findSlot gABC1 d t = none →
        add_edge gABC1 s d t = (Except.ok (), g2) →
        resLookup g2.results d = none)) :=
  ⟨reachable_gABC1, C6_cached_only_if_complete gABC1 reachable_gABC1⟩

/-- C8: after a successful `generate_graph`, an immediate
`generate_graph_missing` walks the same topological order, finds every
node cached so it invokes `generate_node` (and hence a transformer's
`generate`) on none of them, succeeds, and returns the state unchanged. -/
theorem C8_missing_after_full_is_noop (g g2 : TextureGraph T)
    (h : generate_graph g = some (Except.ok (), g2)) :
    topoOrder g2 = topoOrder g ∧
    missingEvals g2 (topoOrder g2) = [] ∧
    generate_graph_missing g2 = some (Except.ok (), g2) := by
  obtain ⟨hn, he, hall⟩ := runNodes_ok_spec h
  have htopo : topoOrder g2 = topoOrder g := topoOrder_congr (by rw [hn]) he
  have hallc : ∀ i ∈ topoOrder g2, resContains g2.results i = true := by
    intro i hi
    rw [htopo] at hi
    obtain ⟨v, hv⟩ := hall i hi
    rw [resContains_eq_isSome, hv]
    rfl
  refine ⟨htopo, missingEvals_all_cached hallc, ?_⟩
  rw [generate_graph_missing]
  exact runMissing_all_cached hallc

/-- The state a successful `generate_graph` leaves on the scenario graph. -/
def gABCgen : TextureGraph Nat :=
  ((generate_graph gABC).getD (Except.ok (), gABC)).2

theorem C8_witness :
    generate_graph gABC = some (Except.ok (), gABCgen) ∧
    (topoOrder gABCgen = topoOrder gABC ∧
      missingEvals gABCgen (topoOrder gABCgen) = [] ∧
      generate_graph_missing gABCgen = some (Except.ok (), gABCgen)) :=
  ⟨rfl, C8_missing_after_full_is_noop gABC gABCgen rfl⟩

theorem C10_witness :
    gABC.nodes[10]? = none ∧
    (get_node gABC 10 = none ∧
      (∀ d t, add_edge gABC 10 d t = (Except.error "Unknown node", gABC)) ∧
      (∀ s t, ∃ m, add_edge gABC s 10 t = (Except.error m, gABC)) ∧
      generate_node gABC 10 = none) :=
  ⟨rfl, C10_stale_index_handling gABC 10 rfl⟩

end TextureGraph

end TexGraph
